import Mathlib

/-!
# go-cache: key encoding, filesystem cache and error-caching resolver

A shallow embedding of `filesystem.go` and `error_resolver.go`.
Go strings are byte sequences, so a key is a list of bytes.  The standard
library functions the program calls (`regexp`, `net/url`, `strings`,
`path/filepath`, `time`) and the `afero` file systems are modelled from
their Go sources and documentation; the functions of the repository itself
are translated statement by statement.  Logging is left out.
-/

set_option autoImplicit false

namespace GoCache

/-! ## Go strings -/

/-- A Go `byte`. -/
abbrev Byte := Fin 256

/-- A Go `string`: an arbitrary sequence of bytes (not necessarily UTF-8). -/
abbrev GoString := List Byte

/-- The UTF-8 bytes of a Lean string literal, as a Go string. -/
def str (s : String) : GoString :=
  (s.data.flatMap String.utf8EncodeChar).map fun b => b.val

/-! ## `unicode/utf8`: decoding one rune -/

/-- The rune `utf8.RuneError` (U+FFFD). -/
def RuneError : Nat := 0xFFFD

/-- Go `utf8.DecodeRuneInString`: the first rune of `s` and its width in bytes.
Invalid or truncated encodings decode to `(RuneError, 1)`, the empty string to
`(RuneError, 0)`.  The case analysis on the first byte is the table `first` of
the Go source together with its accept ranges. -/
def DecodeRuneInString (s : GoString) : Nat × Nat :=
  match s with
  | [] => (RuneError, 0)
  | s0 :: rest =>
    if s0.val < 0x80 then (s0.val, 1)
    else if s0.val < 0xC2 then (RuneError, 1)
    else if 0xF5 ≤ s0.val then (RuneError, 1)
    else
      let sz : Nat := if s0.val < 0xE0 then 2 else if s0.val < 0xF0 then 3 else 4
      let lo : Nat := if s0.val = 0xE0 then 0xA0 else if s0.val = 0xF0 then 0x90 else 0x80
      let hi : Nat := if s0.val = 0xED then 0x9F else if s0.val = 0xF4 then 0x8F else 0xBF
      if rest.length + 1 < sz then (RuneError, 1)
      else
        match rest with
        | [] => (RuneError, 1)
        | s1 :: rest1 =>
          if s1.val < lo ∨ hi < s1.val then (RuneError, 1)
          else if sz ≤ 2 then ((s0.val % 32) * 64 + s1.val % 64, 2)
          else
            match rest1 with
            | [] => (RuneError, 1)
            | s2 :: rest2 =>
              if s2.val < 0x80 ∨ 0xBF < s2.val then (RuneError, 1)
              else if sz ≤ 3 then
                ((s0.val % 16) * 4096 + (s1.val % 64) * 64 + s2.val % 64, 3)
              else
                match rest2 with
                | [] => (RuneError, 1)
                | s3 :: _ =>
                  if s3.val < 0x80 ∨ 0xBF < s3.val then (RuneError, 1)
                  else
                    ((s0.val % 8) * 262144 + (s1.val % 64) * 4096
                      + (s2.val % 64) * 64 + s3.val % 64, 4)

/-! ## `net/url`: `QueryEscape` -/

/-- Go `url.shouldEscape(c, encodeQueryComponent)`: letters, digits and the
marks `-`, `_`, `.`, `~` are left alone, every other byte is escaped. -/
def shouldEscape (c : Byte) : Bool :=
  if (0x61 ≤ c.val ∧ c.val ≤ 0x7A) ∨ (0x41 ≤ c.val ∧ c.val ≤ 0x5A)
      ∨ (0x30 ≤ c.val ∧ c.val ≤ 0x39) then false
  else if c.val = 0x2D ∨ c.val = 0x5F ∨ c.val = 0x2E ∨ c.val = 0x7E then false
  else true

/-- The digit table `upperhex = "0123456789ABCDEF"`, indexed by a nibble. -/
def upperhex (n : Nat) : Byte :=
  if n < 10 then Fin.ofNat (0x30 + n) else Fin.ofNat (0x41 + (n - 10))

/-- What `url.escape` writes for one byte in `encodeQueryComponent` mode:
`+` for a space, `%XX` for a byte that must be escaped, the byte otherwise. -/
def escapeByte (c : Byte) : GoString :=
  if c.val = 0x20 then [0x2B]
  else if shouldEscape c then [0x25, upperhex (c.val / 16), upperhex (c.val % 16)]
  else [c]

/-- Go `url.QueryEscape`. -/
def QueryEscape (s : GoString) : GoString :=
  s.flatMap escapeByte

/-! ## `regexp`: the compiled expression `keyReplacer` -/

/-- The character class `[-._/a-zA-Z0-9]`, on runes. -/
def inKeyClass (r : Nat) : Bool :=
  r = 0x2D ∨ r = 0x2E ∨ r = 0x5F ∨ r = 0x2F
    ∨ (0x61 ≤ r ∧ r ≤ 0x7A) ∨ (0x41 ≤ r ∧ r ≤ 0x5A) ∨ (0x30 ≤ r ∧ r ≤ 0x39)

/-- The regular expression `keyReplacer = "[^-._/a-zA-Z0-9]"`: it matches
exactly one rune, any rune outside the class (an undecodable byte is read as
`RuneError`, which is outside the class). -/
def keyReplacer (r : Nat) : Bool :=
  !inKeyClass r

/-- Go `(*Regexp).ReplaceAllStringFunc` for an expression that matches single
runes: the string is scanned rune by rune, a matching rune is replaced by
`repl` of its bytes and any other rune is copied.  `skip` counts the bytes of
the current rune that are still to be passed over. -/
def ReplaceAllStringFuncAux (re : Nat → Bool) (repl : GoString → GoString) :
    Nat → GoString → GoString
  | _, [] => []
  | skip + 1, _ :: rest => ReplaceAllStringFuncAux re repl skip rest
  | 0, c :: rest =>
    let rw := DecodeRuneInString (c :: rest)
    let m := (c :: rest).take rw.2
    (if re rw.1 then repl m else m) ++ ReplaceAllStringFuncAux re repl (rw.2 - 1) rest

/-- Go `(*Regexp).ReplaceAllStringFunc`, for a single-rune expression. -/
def ReplaceAllStringFunc (re : Nat → Bool) (src : GoString)
    (repl : GoString → GoString) : GoString :=
  ReplaceAllStringFuncAux re repl 0 src

/-! ## `strings`: `ReplaceAll` -/

/-- The scan of Go `strings.ReplaceAll(s, old, new)` for a non-empty `old`:
the leftmost occurrence is replaced and the scan resumes after it, so the
replaced occurrences do not overlap.  `skip` counts the bytes of the current
occurrence that are still to be passed over. -/
def ReplaceAllAux (old new : GoString) : Nat → GoString → GoString
  | _, [] => []
  | skip + 1, _ :: rest => ReplaceAllAux old new skip rest
  | 0, c :: rest =>
    if old.isPrefixOf (c :: rest) then new ++ ReplaceAllAux old new (old.length - 1) rest
    else c :: ReplaceAllAux old new 0 rest

/-- Go `strings.ReplaceAll(s, old, new)` for a non-empty `old` (the program
only calls it with `old = ".."`). -/
def ReplaceAll (s old new : GoString) : GoString :=
  ReplaceAllAux old new 0 s

/-! ## `filesystem.go`: `makeDiskKey` -/

/-- The two statements of `makeDiskKey` after the test for `"."`: escape the
disallowed characters, then rewrite `..`. -/
def encodeKey (key : GoString) : GoString :=
  let key := ReplaceAllStringFunc keyReplacer key QueryEscape
  ReplaceAll key (str "..") (str "%2E%2E")

/-- Source `makeDiskKey`. -/
def makeDiskKey (key : GoString) : GoString :=
  if key = str "." then str "%2E"
  else encodeKey key

/-! ## The key encoder, pass by pass -/

/-- What the escaping pass writes for one byte of the key: a byte of the class
`[-._/a-zA-Z0-9]` is copied, any other byte goes through `url.QueryEscape`. -/
def encByte (b : Byte) : GoString :=
  if inKeyClass b.val then [b] else escapeByte b

/-- The rewriting pass `strings.ReplaceAll(key, "..", "%2E%2E")` as a recursion
on the string. -/
def escapeDots : GoString → GoString
  | [] => []
  | [a] => [a]
  | a :: b :: rest =>
    if a = 0x2E ∧ b = 0x2E then [0x25, 0x32, 0x45, 0x25, 0x32, 0x45] ++ escapeDots rest
    else a :: escapeDots (b :: rest)

/-! ### A decoder for encoded keys -/

/-- The value of a hexadecimal digit (as Go `url.unhex`). -/
def unhex (c : Byte) : Nat :=
  if 0x30 ≤ c.val ∧ c.val ≤ 0x39 then c.val - 0x30
  else if 0x61 ≤ c.val ∧ c.val ≤ 0x66 then c.val - 0x61 + 10
  else if 0x41 ≤ c.val ∧ c.val ≤ 0x46 then c.val - 0x41 + 10
  else 0

/-- A decoder for encoded keys, after Go `url.QueryUnescape`: `%XX` is read as
the byte `XX`, `+` as a space, and any other byte as itself. -/
def decodeKey : GoString → GoString
  | [] => []
  | [a] => [if a = 0x2B then 0x20 else a]
  | [a, b] => [if a = 0x2B then 0x20 else a, if b = 0x2B then 0x20 else b]
  | c :: h :: l :: rest =>
    if c = 0x25 then Fin.ofNat (unhex h * 16 + unhex l) :: decodeKey rest
    else (if c = 0x2B then 0x20 else c) :: decodeKey (h :: l :: rest)

/-! ### The forms of an escaped byte -/

/-- The percent-escaped form of a byte: `%` followed by its two hexadecimal
digits. -/
def percentEscape (b : Byte) : GoString :=
  [0x25, upperhex (b.val / 16), upperhex (b.val % 16)]

/-- What `makeDiskKey` writes for a byte outside the class: `+` for a space,
`~` for a tilde, the percent-escaped form for any other byte. -/
def escapedForm (b : Byte) : GoString :=
  if b = 0x20 then str "+" else if b = 0x7E then str "~" else percentEscape b

/-! ## `error_resolver.go` -/

/-- A Go `error` value, identified by the text its `Error()` method returns. -/
structure GoError where
  msg : GoString
deriving DecidableEq

/-- Go `fmt.Errorf("failed to resolve cache: %s", text)`. -/
def failedToResolve (text : GoString) : GoError :=
  ⟨str "failed to resolve cache: " ++ text⟩

/-- Source `errResponse[T]`. -/
structure errResponse (T : Type) where
  Error : GoString
  Value : T
deriving DecidableEq

/-- Modelled from the spec: the type `resolverFunc[T]`, declared outside the
source files: a producer `() -> (T, error)`.  It is a Go closure, so it reads
and changes the state `σ` of the program. -/
abbrev resolverFunc (σ T : Type) := σ → (T × Option GoError) × σ

/-- Modelled from the spec: the interface `Resolver[T]`, declared outside the
source files, with its one method `Resolve(key, producer) -> (T, error)`. -/
structure Resolver (σ T : Type) where
  Resolve : GoString → resolverFunc σ T → σ → (T × Option GoError) × σ

/-- Source `errorResolver[T]`. -/
structure errorResolver (σ T : Type) where
  resolver : Resolver σ (errResponse T)

/-- The closure `errorResolver.Resolve` hands to the wrapped resolver: it calls
the producer, stores the value and the text of the error, if any, in an
`errResponse`, and never fails. -/
def errorResolver.adapt {σ T : Type} (resolver : resolverFunc σ T) :
    resolverFunc σ (errResponse T) := fun s =>
  let res := resolver s
  let v := res.1.1
  let err := res.1.2
  let out : errResponse T := { Error := [], Value := v }
  let out : errResponse T :=
    match err with
    | some e => { out with Error := e.msg }
    | none => out
  ((out, none), res.2)

/-- Source `errorResolver.Resolve`. -/
def errorResolver.Resolve {σ T : Type} (r : errorResolver σ T) (key : GoString)
    (resolver : resolverFunc σ T) : σ → (T × Option GoError) × σ := fun s =>
  let res := r.resolver.Resolve key (errorResolver.adapt resolver) s
  let v := res.1.1
  let err := res.1.2
  match err with
  | some e => ((v.Value, some e), res.2)
  | none =>
    if v.Error ≠ [] then ((v.Value, some (failedToResolve v.Error)), res.2)
    else ((v.Value, none), res.2)

/-- The state of a program using `memoResolver`: the stored entries and the
number of times a producer has run. -/
structure MemoState (V : Type) where
  store : List (GoString × V)
  calls : Nat
deriving DecidableEq

/-- Modelled from the spec: the base resolver returned by `NewResolver`, which
is outside the source files, over an in-memory store and without
serialisation: a stored entry is returned without running the producer;
otherwise the producer runs, and its value is stored when it succeeds. -/
def memoResolver (V : Type) : Resolver (MemoState V) V where
  Resolve := fun key producer s =>
    match s.store.lookup key with
    | some v => ((v, none), s)
    | none =>
      let res := producer s
      match res.1.2 with
      | some e => ((res.1.1, some e), res.2)
      | none => ((res.1.1, none), { res.2 with store := (key, res.1.1) :: res.2.store })

/-- A producer that counts its runs and fails with the given error. -/
def failingProducer (V : Type) (e : GoError) : resolverFunc (MemoState V) Nat := fun s =>
  ((0, some e), { s with calls := s.calls + 1 })

/-- A resolver whose own `Resolve` fails, returning an error next to a non-zero
envelope. -/
def brokenResolver : Resolver Unit (errResponse Nat) where
  Resolve := fun _ _ s => ((⟨[], 7⟩, some ⟨str "cache layer"⟩), s)

/-! ## `path/filepath` -/

/-- One step of the scan of Go `filepath.Clean`, on the stack of the path
elements kept so far (the last one on top): an empty element and `.` are
dropped; `..` removes the element on top when there is one that is not itself
`..`, is dropped at the root of a rooted path, and is kept otherwise. -/
def cleanStep (rooted : Bool) (stack : List GoString) (seg : GoString) : List GoString :=
  if seg = [] ∨ seg = str "." then stack
  else if seg = str ".." then
    match stack with
    | top :: below => if top = str ".." then seg :: stack else below
    | [] => if rooted then [] else [seg]
  else seg :: stack

/-- The string of a cleaned path with the given elements: they are joined by
`/`, after a leading `/` for a rooted path; the empty result is written `.`. -/
def renderPath (rooted : Bool) (segs : List GoString) : GoString :=
  let out := (if rooted then [0x2F] else []) ++ [0x2F].intercalate segs
  if out = [] then str "." else out

/-- Go `filepath.Clean` (Unix): the shortest path equivalent to `path` by
purely lexical processing. -/
def Clean (path : GoString) : GoString :=
  let rooted : Bool := path.head? = some 0x2F
  renderPath rooted ((path.splitOn 0x2F).foldl (cleanStep rooted) []).reverse

/-- Go `filepath.Join` (Unix): the elements from the first non-empty one on are
joined by `/` and the result is cleaned; without a non-empty element the
result is the empty string. -/
def Join (elem : List GoString) : GoString :=
  match elem.dropWhile (fun e => decide (e = [])) with
  | [] => []
  | e :: es => Clean ([0x2F].intercalate (e :: es))

/-- Go `filepath.Split` (Unix): the path up to and including its last `/`, and
what follows it. -/
def Split (path : GoString) : GoString × GoString :=
  let file := (path.reverse.takeWhile (fun b => decide (b ≠ 0x2F))).reverse
  (path.take (path.length - file.length), file)

/-! ## `time` -/

/-- The largest `time.Duration`, in nanoseconds. -/
def maxDuration : Int := 2 ^ 63 - 1

/-- The smallest `time.Duration`, in nanoseconds. -/
def minDuration : Int := -(2 ^ 63)

/-- Go `time.Since(t)` at the instant `now` (both in nanoseconds): `now - t`,
or the largest or smallest duration when the difference does not fit. -/
def Since (now t : Int) : Int :=
  if now - t > maxDuration then maxDuration
  else if now - t < minDuration then minDuration
  else now - t

/-! ## `afero`: the file systems -/

/-- The errors of the file system operations. -/
inductive FsError where
  | ErrNotExist
  | ErrExist
  | ENOTDIR
  | EISDIR
deriving DecidableEq

/-- The result `(value, error)` of a file system operation. -/
inductive FsResult (α : Type) where
  | error (e : FsError)
  | ok (a : α)
deriving DecidableEq

/-- Go `os.FileInfo`, as far as the program reads it. -/
structure FileInfo where
  ModTime : Int
  IsDir : Bool
deriving DecidableEq

/-- An open file (`afero.File`): its bytes, and what `Stat()` returns, `none`
standing for a failed `Stat` or a nil `FileInfo`. -/
structure File where
  contents : GoString
  Stat : Option FileInfo
deriving DecidableEq

/-- A file or a directory of the operating system's file tree. -/
structure Node where
  isDir : Bool
  content : GoString
  modTime : Int
deriving DecidableEq

/-- The file tree seen through `afero.OsFs`: what is found at each path.  The
program only hands cleaned paths to the operating system, and two of them name
the same file when they are the same string (no symbolic links, no
permissions). -/
abbrev OsState := GoString → Option Node

/-- The tree with the node at `p` replaced. -/
def OsState.set (st : OsState) (p : GoString) (n : Node) : OsState :=
  fun q => if q = p then some n else st q

/-- The path and its ancestors, from the top: `a`, `a/b`, `a/b/c` for `a/b/c`
and `/a`, `/a/b` for `/a/b`. -/
def ancestors (path : GoString) : List GoString :=
  ((path.splitOn 0x2F).inits.map fun segs => [0x2F].intercalate segs).filter
    fun p => decide (p ≠ [])

/-- The loop of Go `os.MkdirAll` over the path and its ancestors: a directory
that exists is passed, a missing one is made, a file in the way is an error. -/
def osMkdirAllAux (now : Int) : List GoString → OsState → Option FsError × OsState
  | [], st => (none, st)
  | p :: ps, st =>
    match st p with
    | some n => if n.isDir then osMkdirAllAux now ps st else (some .ENOTDIR, st)
    | none => osMkdirAllAux now ps (st.set p ⟨true, [], now⟩)

/-- Go `os.MkdirAll`. -/
def osMkdirAll (st : OsState) (now : Int) (path : GoString) : Option FsError × OsState :=
  osMkdirAllAux now (ancestors path) st

/-- Go `os.Create` followed by writing `contents` and closing: a directory at
`path` or a parent that is not a directory is an error; otherwise `path` is a
file with these contents, modified at `now`. -/
def osCreate (st : OsState) (now : Int) (path : GoString) (contents : GoString) :
    Option FsError × OsState :=
  match st path with
  | some n =>
    if n.isDir then (some .EISDIR, st) else (none, st.set path ⟨false, contents, now⟩)
  | none =>
    match (ancestors path).dropLast.getLast? with
    | none => (none, st.set path ⟨false, contents, now⟩)
    | some parent =>
      match st parent with
      | none => (some .ErrNotExist, st)
      | some n =>
        if n.isDir then (none, st.set path ⟨false, contents, now⟩) else (some .ENOTDIR, st)

/-- Go `os.Stat`. -/
def osStat (st : OsState) (path : GoString) : FsResult FileInfo :=
  match st path with
  | none => .error .ErrNotExist
  | some n => .ok ⟨n.modTime, n.isDir⟩

/-- Go `os.Open`: a file or a directory can be opened. -/
def osOpen (st : OsState) (path : GoString) : FsResult File :=
  match st path with
  | none => .error .ErrNotExist
  | some n => .ok ⟨n.content, some ⟨n.modTime, n.isDir⟩⟩

/-- An `afero.Fs` of the program: the operating system's file system, or an
`afero.BasePathFs` over another one. -/
inductive Fs where
  | OsFs
  | BasePathFs (source : Fs) (path : GoString)
deriving DecidableEq

/-- Go `(*BasePathFs).RealPath` (Unix): the name below the base path, or
`ErrNotExist` for a name that, cleaned, is outside the base path. -/
def RealPath (basePath name : GoString) : FsResult GoString :=
  let bpath := Clean basePath
  let path := Clean (Join [bpath, name])
  if !(bpath.isPrefixOf path) then .error .ErrNotExist else .ok path

/-- The method `Stat` of an `afero.Fs`. -/
def Fs.Stat : Fs → OsState → GoString → FsResult FileInfo
  | .OsFs, st, name => osStat st name
  | .BasePathFs source path, st, name =>
    match RealPath path name with
    | .error e => .error e
    | .ok name => source.Stat st name

/-- The method `MkdirAll` of an `afero.Fs`. -/
def Fs.MkdirAll : Fs → OsState → Int → GoString → Option FsError × OsState
  | .OsFs, st, now, name => osMkdirAll st now name
  | .BasePathFs source path, st, now, name =>
    match RealPath path name with
    | .error e => (some e, st)
    | .ok name => source.MkdirAll st now name

/-- The method `Create` of an `afero.Fs`, followed by writing the contents and
closing the file. -/
def Fs.Create : Fs → OsState → Int → GoString → GoString → Option FsError × OsState
  | .OsFs, st, now, name, contents => osCreate st now name contents
  | .BasePathFs source path, st, now, name, contents =>
    match RealPath path name with
    | .error e => (some e, st)
    | .ok name => source.Create st now name contents

/-- The method `Open` of an `afero.Fs`. -/
def Fs.Open : Fs → OsState → GoString → FsResult File
  | .OsFs, st, name => osOpen st name
  | .BasePathFs source path, st, name =>
    match RealPath path name with
    | .error e => .error e
    | .ok name => source.Open st name

/-- Go `afero.WriteReader`: make the directory of `path`, then create the file
and copy the contents into it. -/
def WriteReader (fs : Fs) (st : OsState) (now : Int) (path : GoString) (r : GoString) :
    Option FsError × OsState :=
  let dir := (Split path).1
  let made : Option FsError × OsState :=
    if dir ≠ [] then fs.MkdirAll st now dir else (none, st)
  match made.1 with
  | some e => if e ≠ .ErrExist then (some e, made.2) else fs.Create made.2 now path r
  | none => fs.Create made.2 now path r

/-! ## `filesystem.go`: the cache -/

/-- Source `errNotFound`. -/
def errNotFound : GoError := ⟨str "not found"⟩

/-- Source `errExpired`. -/
def errExpired : GoError := ⟨str "expired"⟩

/-- Source `filesystemCache` (the logger left out). -/
structure filesystemCache where
  dir : GoString
  fs : Fs
  ttl : Int
deriving DecidableEq

/-- Modelled from the spec: the interface `Cache` and its implementation
`bypassedCache`, both declared outside the source files.  A cache is the
bypass cache or a `filesystemCache`. -/
inductive Cache where
  | bypassedCache
  | filesystemCache (d : GoCache.filesystemCache)
deriving DecidableEq

/-- Source `NewResolverCachingErrors`; the constructor `NewResolver` of the base
resolver, which is outside the source files, is a parameter. -/
def NewResolverCachingErrors {σ T : Type}
    (NewResolver : Cache → Resolver σ (errResponse T)) (cache : Cache) : errorResolver σ T :=
  { resolver := NewResolver cache }

/-- Source `subFs`: the directory `subDirs...` below `fsys`, made if missing,
as a file system of its own.  The texts of the errors are not modelled. -/
def subFs (fsys : Fs) (st : OsState) (now : Int) (subDirs : List GoString) :
    (Option Fs × Option GoError) × OsState :=
  let dir := Join subDirs
  let dir := Clean dir
  match fsys.Stat st dir with
  | .error .ErrNotExist =>
    let made := fsys.MkdirAll st now dir
    match made.1 with
    | some _ => ((none, some ⟨str "unable to create directory"⟩), made.2)
    | none =>
      match fsys.Stat made.2 dir with
      | .error _ => ((none, some ⟨str "stat"⟩), made.2)
      | .ok stat =>
        if !stat.IsDir then ((none, some ⟨str "unable to verify directory"⟩), made.2)
        else ((some (.BasePathFs fsys dir), none), made.2)
  | .error _ => ((none, some ⟨str "unable to verify directory"⟩), st)
  | .ok stat =>
    if !stat.IsDir then ((none, some ⟨str "unable to verify directory"⟩), st)
    else ((some (.BasePathFs fsys dir), none), st)

/-- Source `NewFromDir`. -/
def NewFromDir (st : OsState) (now : Int) (dir : GoString) (ttl : Int) :
    (Option filesystemCache × Option GoError) × OsState :=
  let dir := Clean dir
  let res := subFs .OsFs st now [dir]
  match res.1 with
  | (some fsys, none) => ((some { dir := dir, fs := fsys, ttl := ttl }, none), res.2)
  | (_, err) => ((none, err), res.2)

/-- Source `filesystemCache.GetCache`. -/
def filesystemCache.GetCache (d : filesystemCache) (st : OsState) (now : Int)
    (name version : GoString) : Cache × OsState :=
  let res := subFs d.fs st now [name, version]
  match res.1 with
  | (some fsys, none) =>
    (.filesystemCache { dir := Join [d.dir, name, version], fs := fsys, ttl := d.ttl }, res.2)
  | _ => (.bypassedCache, res.2)

/-- Source `filesystemCache.RootDirs`. -/
def filesystemCache.RootDirs (d : filesystemCache) : List GoString :=
  if d.dir = [] then [] else [d.dir]

/-- Source `filesystemCache.Read`, at the instant `now`. -/
def filesystemCache.Read (d : filesystemCache) (st : OsState) (now : Int) (key : GoString) :
    Option File × Option GoError :=
  let path := makeDiskKey key
  match d.fs.Open st path with
  | .error _ => (none, some errNotFound)
  | .ok f =>
    match f.Stat with
    | none => (none, some errExpired)
    | some stat =>
      if Since now stat.ModTime > d.ttl then (none, some errExpired)
      else (some f, none)

/-- Source `filesystemCache.Write`, at the instant `now`. -/
def filesystemCache.Write (d : filesystemCache) (st : OsState) (now : Int) (key : GoString)
    (contents : GoString) : Option FsError × OsState :=
  let path := makeDiskKey key
  WriteReader d.fs st now path contents

/-- Modelled from the spec: the method `Read` of the interface `Cache`, whose
implementation by the bypass cache is outside the source files: it always
fails with `NotFound`. -/
def Cache.Read (c : Cache) (st : OsState) (now : Int) (key : GoString) :
    Option File × Option GoError :=
  match c with
  | .bypassedCache => (none, some errNotFound)
  | .filesystemCache d => d.Read st now key

/-- Modelled from the spec: the method `Write` of the interface `Cache`, whose
implementation by the bypass cache is outside the source files: it always
succeeds and writes nothing. -/
def Cache.Write (c : Cache) (st : OsState) (now : Int) (key : GoString)
    (contents : GoString) : Option FsError × OsState :=
  match c with
  | .bypassedCache => (none, st)
  | .filesystemCache d => d.Write st now key contents

/-- A file tree holding only the root directory. -/
def emptyTree : OsState :=
  fun p => if p = str "/" then some ⟨true, [], 0⟩ else none

/-- A store rooted at `/cache`, as `NewFromDir` returns it. -/
def exStore : filesystemCache :=
  ⟨str "/cache", .BasePathFs .OsFs (str "/cache"), 1000⟩

/-- The file tree after `NewFromDir` has made `/cache`. -/
def exTree0 : OsState :=
  (NewFromDir emptyTree 0 (str "/cache") 1000).2

/-- The file tree after `GetCache("a", "1")` has made `/cache/a/1`. -/
def exTree : OsState :=
  (exStore.GetCache exTree0 1 (str "a") (str "1")).2

/-- The cache of the namespace `("a", "1")` of `exStore`. -/
def exCache : filesystemCache :=
  ⟨str "/cache/a/1", .BasePathFs (.BasePathFs .OsFs (str "/cache")) (str "a/1"), 1000⟩

/-- The cache `exCache` with the largest ttl a `Duration` can hold. -/
def exCacheMax : filesystemCache :=
  { exCache with ttl := maxDuration }

/-- The cache `exCache` with ttl zero. -/
def exCacheZero : filesystemCache :=
  { exCache with ttl := 0 }

/-! ## Paths of plain names -/

/-- A name that is a single path element: not empty, without `/`, and neither
`.` nor `..`. -/
def plainName (s : GoString) : Prop :=
  s ≠ [] ∧ (0x2F : Byte) ∉ s ∧ s ≠ str "." ∧ s ≠ str ".."

instance (s : GoString) : Decidable (plainName s) :=
  inferInstanceAs (Decidable (s ≠ [] ∧ (0x2F : Byte) ∉ s ∧ s ≠ str "." ∧ s ≠ str ".."))

/-- The string of the path with the given elements, rooted or not. -/
def pathString (rooted : Bool) (segs : List GoString) : GoString :=
  [0x2F].intercalate ((if rooted then [[]] else []) ++ segs)

/-- The path an `afero.Fs` of the program hands to the operating system for a
name: the name itself for `OsFs`, and for a `BasePathFs` the real path of the
name, resolved by the file system below. -/
def Fs.resolve : Fs → GoString → FsResult GoString
  | .OsFs, name => .ok name
  | .BasePathFs source path, name =>
    match RealPath path name with
    | .error e => .error e
    | .ok name => source.resolve name

/-- Path elements: not empty and without `/`. -/
def isSeg (x : GoString) : Prop :=
  x ≠ [] ∧ (0x2F : Byte) ∉ x

instance (x : GoString) : Decidable (isSeg x) :=
  inferInstanceAs (Decidable (x ≠ [] ∧ (0x2F : Byte) ∉ x))

/-- The path of the file that holds the entry of a key in a cache, when there
is one: the path handed to the operating system for `makeDiskKey(key)`. -/
def Cache.filePath (c : Cache) (key : GoString) : Option GoString :=
  match c with
  | .bypassedCache => none
  | .filesystemCache d =>
    match d.fs.resolve (makeDiskKey key) with
    | .error _ => none
    | .ok p => some p

/-! # Theorems -/

/-! ## The key encoder: the two passes, byte by byte -/

theorem str_dotdot : str ".." = [0x2E, 0x2E] := by decide

theorem str_pct2E : str "%2E" = [0x25, 0x32, 0x45] := by decide

theorem str_pct2E2E : str "%2E%2E" = [0x25, 0x32, 0x45, 0x25, 0x32, 0x45] := by decide

theorem str_dot : str "." = [0x2E] := by decide

theorem encByte_of_high (b : Byte) (h : 0x80 ≤ b.val) : encByte b = escapeByte b := by
  have : inKeyClass b.val = false := by
    simp only [inKeyClass, decide_eq_false_iff_not]
    omega
  simp [encByte, this]

theorem keyReplacer_of_high (r : Nat) (h : 0x80 ≤ r) : keyReplacer r = true := by
  simp only [keyReplacer, inKeyClass, Bool.not_eq_true', decide_eq_false_iff_not]
  omega

theorem DecodeRune_cases (c : Byte) (rest : GoString) (r w : Nat)
    (h : DecodeRuneInString (c :: rest) = (r, w)) :
    (w = 1 ∧ ((c.val < 0x80 ∧ r = c.val) ∨ (0x80 ≤ c.val ∧ r = RuneError)))
      ∨ (2 ≤ w ∧ 0x80 ≤ r ∧ ∀ b ∈ (c :: rest).take w, 0x80 ≤ b.val) := by
  rw [DecodeRuneInString] at h
  by_cases h1 : c.val < 0x80
  · rw [if_pos h1] at h
    simp only [Prod.mk.injEq] at h
    omega
  rw [if_neg h1] at h
  by_cases h2 : c.val < 0xC2
  · rw [if_pos h2] at h
    simp only [Prod.mk.injEq] at h
    omega
  rw [if_neg h2] at h
  by_cases h3 : 0xF5 ≤ c.val
  · rw [if_pos h3] at h
    simp only [Prod.mk.injEq] at h
    omega
  rw [if_neg h3] at h
  dsimp only at h
  generalize hszd : (if c.val < 224 then 2 else if c.val < 240 then 3 else 4 : Nat) = sz at h
  generalize hlod : (if c.val = 224 then 160 else if c.val = 240 then 144 else 128 : Nat) = lo at h
  generalize hhid : (if c.val = 237 then 159 else if c.val = 244 then 143 else 191 : Nat) = hi at h
  have hsz : (sz = 2 ∧ c.val < 224) ∨ (sz = 3 ∧ 224 ≤ c.val ∧ c.val < 240)
      ∨ (sz = 4 ∧ 240 ≤ c.val) := by
    rw [← hszd]; split_ifs <;> omega
  have hlo : (lo = 128 ∧ c.val ≠ 224 ∧ c.val ≠ 240) ∨ (lo = 160 ∧ c.val = 224)
      ∨ (lo = 144 ∧ c.val = 240) := by
    rw [← hlod]; split_ifs <;> omega
  have hhi : hi ≤ 191 := by
    rw [← hhid]; split_ifs <;> omega
  clear hszd hlod hhid
  have hRE : RuneError = 0xFFFD := rfl
  split at h
  · simp only [Prod.mk.injEq] at h; omega
  split at h
  · simp only [Prod.mk.injEq] at h; omega
  rename_i s1 rest1
  split at h
  · simp only [Prod.mk.injEq] at h; omega
  split at h
  · simp only [Prod.mk.injEq] at h
    right
    obtain ⟨rfl, rfl⟩ := h
    refine ⟨le_refl _, by omega, ?_⟩
    simp only [List.take_succ_cons, List.take_zero, List.mem_cons, List.mem_nil_iff, or_false]
    rintro b (rfl | rfl) <;> omega
  split at h
  · simp only [Prod.mk.injEq] at h; omega
  rename_i s2 rest2
  split at h
  · simp only [Prod.mk.injEq] at h; omega
  split at h
  · simp only [Prod.mk.injEq] at h
    right
    obtain ⟨rfl, rfl⟩ := h
    refine ⟨by omega, by omega, ?_⟩
    simp only [List.take_succ_cons, List.take_zero, List.mem_cons, List.mem_nil_iff, or_false]
    rintro b (rfl | rfl | rfl) <;> omega
  split at h
  · simp only [Prod.mk.injEq] at h; omega
  rename_i s3 rest3
  split at h
  · simp only [Prod.mk.injEq] at h; omega
  · simp only [Prod.mk.injEq] at h
    right
    obtain ⟨rfl, rfl⟩ := h
    refine ⟨by omega, by omega, ?_⟩
    simp only [List.take_succ_cons, List.take_zero, List.mem_cons, List.mem_nil_iff, or_false]
    rintro b (rfl | rfl | rfl | rfl) <;> omega

theorem escapeRune_eq (c : Byte) (rest : GoString) (r w : Nat)
    (h : DecodeRuneInString (c :: rest) = (r, w)) :
    1 ≤ w ∧ (if keyReplacer r then QueryEscape ((c :: rest).take w) else (c :: rest).take w)
      = ((c :: rest).take w).flatMap encByte := by
  rcases DecodeRune_cases c rest r w h with ⟨rfl, hc⟩ | ⟨hw, hr, hb⟩
  · refine ⟨le_refl _, ?_⟩
    rcases hc with ⟨_, rfl⟩ | ⟨hc, rfl⟩
    · simp only [List.take_succ_cons, List.take_zero, QueryEscape, List.flatMap_cons,
        List.flatMap_nil, List.append_nil, encByte, keyReplacer]
      cases inKeyClass c.val <;> simp
    · have : keyReplacer RuneError = true := by decide
      simp only [this, if_true, List.take_succ_cons, List.take_zero, QueryEscape,
        List.flatMap_cons, List.flatMap_nil, encByte_of_high c hc]
  · refine ⟨by omega, ?_⟩
    rw [if_pos (keyReplacer_of_high r hr), QueryEscape]
    simp only [List.flatMap]
    congr 1
    exact List.map_congr_left fun b hb1 => (encByte_of_high b (hb b hb1)).symm

theorem ReplaceAllStringFuncAux_eq (s : GoString) (skip : Nat) :
    ReplaceAllStringFuncAux keyReplacer QueryEscape skip s = (s.drop skip).flatMap encByte := by
  induction s generalizing skip with
  | nil => simp [ReplaceAllStringFuncAux]
  | cons c rest ih =>
    cases skip with
    | succ k => simp [ReplaceAllStringFuncAux, ih]
    | zero =>
      rw [ReplaceAllStringFuncAux]
      obtain ⟨hw, he⟩ := escapeRune_eq c rest (DecodeRuneInString (c :: rest)).1
        (DecodeRuneInString (c :: rest)).2 rfl
      rw [he, ih, List.drop_zero, ← List.flatMap_append]
      congr 1
      generalize (DecodeRuneInString (c :: rest)).2 = w at hw
      obtain ⟨k, rfl⟩ : ∃ k, w = k + 1 := ⟨w - 1, by omega⟩
      simp

/-- The escaping pass of `makeDiskKey` acts byte by byte. -/
theorem ReplaceAllStringFunc_eq (s : GoString) :
    ReplaceAllStringFunc keyReplacer s QueryEscape = s.flatMap encByte := by
  simp [ReplaceAllStringFunc, ReplaceAllStringFuncAux_eq]

theorem ReplaceAllAux_dotdot : ∀ s : GoString,
    ReplaceAllAux [0x2E, 0x2E] [0x25, 0x32, 0x45, 0x25, 0x32, 0x45] 0 s = escapeDots s
  | [] => by simp [ReplaceAllAux, escapeDots]
  | [a] => by simp [ReplaceAllAux, escapeDots, List.isPrefixOf]
  | a :: b :: rest => by
    have ih1 := ReplaceAllAux_dotdot rest
    have ih2 := ReplaceAllAux_dotdot (b :: rest)
    rw [ReplaceAllAux, escapeDots]
    by_cases h : a = 0x2E ∧ b = 0x2E
    · obtain ⟨rfl, rfl⟩ := h
      simp [List.isPrefixOf, ReplaceAllAux, ih1]
    · rw [if_neg h, ih2, if_neg]
      simp only [List.isPrefixOf, Bool.and_true, Bool.and_eq_true, beq_iff_eq, not_and]
      intro h1 h2
      exact h ⟨h1.symm, h2.symm⟩

theorem ReplaceAll_dotdot (s : GoString) :
    ReplaceAll s (str "..") (str "%2E%2E") = escapeDots s := by
  rw [ReplaceAll, str_dotdot, str_pct2E2E, ReplaceAllAux_dotdot]

/-- The encoder as the composition of the two byte-level passes. -/
theorem encodeKey_eq (key : GoString) :
    encodeKey key = escapeDots (key.flatMap encByte) := by
  simp only [encodeKey, ReplaceAllStringFunc_eq, ReplaceAll_dotdot]

/-! ### No `..` survives -/

theorem escapeDots_head_dot : ∀ s : GoString,
    (escapeDots s).head? = some 0x2E → s.head? = some 0x2E
  | [] => by simp [escapeDots]
  | [a] => by simp [escapeDots]
  | a :: b :: rest => by
    rw [escapeDots]
    split_ifs with h
    · simp
    · simp

theorem escapeDots_chain : ∀ s : GoString,
    List.Chain' (fun a b : Byte => ¬(a = 0x2E ∧ b = 0x2E)) (escapeDots s)
  | [] => by simp [escapeDots]
  | [a] => by simp [escapeDots]
  | a :: b :: rest => by
    have ih1 := escapeDots_chain rest
    have ih2 := escapeDots_chain (b :: rest)
    rw [escapeDots]
    split_ifs with h
    · refine List.Chain'.cons (by decide) (List.Chain'.cons (by decide)
        (List.Chain'.cons (by decide) (List.Chain'.cons (by decide)
          (List.Chain'.cons (by decide) ?_))))
      rw [List.chain'_cons']
      refine ⟨?_, ih1⟩
      intro y _
      simp
    · rw [List.chain'_cons']
      refine ⟨?_, ih2⟩
      intro y hy
      rintro ⟨rfl, rfl⟩
      have := escapeDots_head_dot (b :: rest) (by simpa using hy)
      simp only [List.head?_cons, Option.some.injEq] at this
      exact h ⟨rfl, this⟩

theorem no_dotdot_infix (s : GoString)
    (h : List.Chain' (fun a b : Byte => ¬(a = 0x2E ∧ b = 0x2E)) s) :
    ¬ ([0x2E, 0x2E] <:+: s) := by
  intro hi
  have := h.infix hi
  simp at this

theorem splitOnP_infix (p : Byte → Bool) : ∀ (s : GoString) (hd : GoString)
    (tl : List GoString), s.splitOnP p = hd :: tl → hd <+: s ∧ ∀ seg ∈ tl, seg <:+: s
  | [], hd, tl, h => by
    simp only [List.splitOnP_nil, List.cons.injEq] at h
    obtain ⟨rfl, rfl⟩ := h
    simp
  | x :: xs, hd, tl, h => by
    rw [List.splitOnP_cons] at h
    obtain ⟨hd1, tl1, h1⟩ : ∃ hd1 tl1, xs.splitOnP p = hd1 :: tl1 := by
      cases h2 : xs.splitOnP p with
      | nil => exact absurd h2 (List.splitOnP_ne_nil p xs)
      | cons a b => exact ⟨a, b, rfl⟩
    obtain ⟨ih1, ih2⟩ := splitOnP_infix p xs hd1 tl1 h1
    rw [h1] at h
    split_ifs at h with hp
    · simp only [List.cons.injEq] at h
      obtain ⟨rfl, rfl⟩ := h
      refine ⟨List.nil_prefix, ?_⟩
      intro seg hseg
      rcases List.mem_cons.1 hseg with rfl | hseg
      · exact (List.infix_cons_iff.2 (Or.inr ih1.isInfix))
      · exact (List.infix_cons_iff.2 (Or.inr (ih2 seg hseg)))
    · simp only [List.modifyHead_cons, List.cons.injEq] at h
      obtain ⟨rfl, rfl⟩ := h
      refine ⟨(List.prefix_cons_inj x).2 ih1, ?_⟩
      intro seg hseg
      exact (List.infix_cons_iff.2 (Or.inr (ih2 seg hseg)))

theorem mem_splitOn_infix (s seg : GoString) (sep : Byte) (h : seg ∈ s.splitOn sep) :
    seg <:+: s := by
  rw [List.splitOn] at h
  cases h2 : s.splitOnP (· == sep) with
  | nil => exact absurd h2 (List.splitOnP_ne_nil _ s)
  | cons a b =>
    obtain ⟨h3, h4⟩ := splitOnP_infix _ s a b h2
    rw [h2] at h
    rcases List.mem_cons.1 h with rfl | h
    · exact h3.isInfix
    · exact h4 seg h

theorem no_dotdot_makeDiskKey (key : GoString) : ¬ (str ".." <:+: makeDiskKey key) := by
  rw [str_dotdot, makeDiskKey]
  split_ifs with h
  · rw [str_pct2E]
    exact no_dotdot_infix _ (by simp)
  · rw [encodeKey_eq]
    exact no_dotdot_infix _ (escapeDots_chain _)

/-! ### The rewriting pass is local to the stretches between other bytes -/

theorem escapeDots_cons_ne (c : Byte) (hc : c ≠ 0x2E) : ∀ q : GoString,
    escapeDots (c :: q) = c :: escapeDots q
  | [] => by simp [escapeDots]
  | b :: rest => by
    rw [escapeDots, if_neg]
    exact fun h => hc h.1

theorem escapeDots_append_cons (c : Byte) (hc : c ≠ 0x2E) (q : GoString) : ∀ p : GoString,
    escapeDots (p ++ c :: q) = escapeDots p ++ c :: escapeDots q
  | [] => by simp [escapeDots, escapeDots_cons_ne c hc q]
  | [a] => by
    have : ¬(a = 0x2E ∧ c = 0x2E) := fun h => hc h.2
    simp only [List.singleton_append, escapeDots, if_neg this, escapeDots_cons_ne c hc q]
  | a :: b :: rest => by
    have ih1 := escapeDots_append_cons c hc q rest
    have ih2 := escapeDots_append_cons c hc q (b :: rest)
    rw [List.cons_append, List.cons_append, escapeDots, escapeDots]
    split_ifs with h
    · rw [ih1, List.append_assoc]
    · rw [← List.cons_append, ih2, List.cons_append]

theorem escapeDots_append_nodot (q : GoString) : ∀ (m : GoString) (p : GoString),
    m ≠ [] → (∀ x ∈ m, x ≠ 0x2E) → escapeDots (p ++ m ++ q) = escapeDots p ++ m ++ escapeDots q
  | [], _, h, _ => absurd rfl h
  | [c], p, _, hm => by
    simp only [List.append_assoc, List.singleton_append]
    exact escapeDots_append_cons c (hm c (by simp)) q p
  | c :: d :: rest, p, _, hm => by
    have ih := escapeDots_append_nodot q (d :: rest) [] (by simp)
      (fun x hx => hm x (List.mem_cons_of_mem _ hx))
    have h1 := escapeDots_append_cons c (hm c (by simp)) ((d :: rest) ++ q) p
    simp only [List.nil_append, escapeDots] at ih
    simp only [List.append_assoc, List.cons_append] at h1 ih ⊢
    rw [h1, ih]

theorem upperhex_val (n : Nat) (h : n < 16) :
    (upperhex n).val = if n < 10 then 0x30 + n else 0x37 + n := by
  unfold upperhex
  split_ifs with h1
  · simp only [Fin.ofNat, Nat.reduceAdd]; omega
  · simp only [Fin.ofNat, Nat.reduceAdd]; omega

/-- The bytes the escaping pass can write for a byte `b`: `b` itself when it is
not escaped, else `+`, `%` and hexadecimal digits. -/
theorem mem_encByte (b x : Byte) (hx : x ∈ encByte b) :
    x = b ∨ x.val = 0x2B ∨ x.val = 0x25 ∨ (0x30 ≤ x.val ∧ x.val ≤ 0x39)
      ∨ (0x41 ≤ x.val ∧ x.val ≤ 0x46) := by
  have h1 := upperhex_val (b.val / 16) (by omega)
  have h2 := upperhex_val (b.val % 16) (by omega)
  unfold encByte escapeByte at hx
  split_ifs at hx
  · left; simpa using hx
  · right; left
    simp only [List.mem_singleton] at hx
    rw [hx]; rfl
  · simp only [List.mem_cons, List.mem_singleton, List.mem_nil_iff, or_false] at hx
    rcases hx with rfl | rfl | rfl
    · right; right; left; rfl
    · right; right; right
      rw [h1]; split_ifs <;> omega
    · right; right; right
      rw [h2]; split_ifs <;> omega
  · left; simpa using hx

theorem encByte_no_dot (b : Byte) (hb : b ≠ 0x2E) : ∀ x ∈ encByte b, x ≠ 0x2E := by
  intro x hx
  rcases mem_encByte b x hx with rfl | h | h | h | h
  · exact hb
  all_goals
    intro h0
    rw [h0] at h
    revert h
    decide

theorem encByte_ne_nil (b : Byte) : encByte b ≠ [] := by
  unfold encByte escapeByte
  split_ifs <;> simp

theorem encByte_dot : encByte 0x2E = [0x2E] := by decide

theorem encByte_slash : encByte 0x2F = [0x2F] := by decide

theorem encByte_no_slash (b : Byte) (hb : b ≠ 0x2F) : ∀ x ∈ encByte b, x ≠ 0x2F := by
  intro x hx
  rcases mem_encByte b x hx with rfl | h | h | h | h
  · exact hb
  all_goals
    intro h0
    rw [h0] at h
    revert h
    decide

/-- Around a byte other than `.` the encoder works on the two sides
independently. -/
theorem encodeKey_append_cons (p q : GoString) (b : Byte) (hb : b ≠ 0x2E) :
    encodeKey (p ++ b :: q) = encodeKey p ++ encByte b ++ encodeKey q := by
  simp only [encodeKey_eq, List.flatMap_append, List.flatMap_cons]
  rw [← List.append_assoc]
  exact escapeDots_append_nodot _ _ _ (encByte_ne_nil b) (encByte_no_dot b hb)

/-! ### Slashes -/

theorem escapeDots_count_slash : ∀ s : GoString,
    (escapeDots s).count 0x2F = s.count 0x2F
  | [] => by simp [escapeDots]
  | [a] => by simp [escapeDots]
  | a :: b :: rest => by
    have ih1 := escapeDots_count_slash rest
    have ih2 := escapeDots_count_slash (b :: rest)
    rw [escapeDots]
    split_ifs with h
    · obtain ⟨rfl, rfl⟩ := h
      rw [List.count_append, ih1]
      simp [List.count_cons]
    · rw [List.count_cons, ih2]
      exact (List.count_cons _ _ _).symm

theorem flatMap_encByte_count_slash (s : GoString) :
    (s.flatMap encByte).count 0x2F = s.count 0x2F := by
  induction s with
  | nil => simp
  | cons b rest ih =>
    rw [List.flatMap_cons, List.count_append, ih, List.count_cons]
    by_cases hb : b = 0x2F
    · subst hb
      rw [encByte_slash]
      simp [Nat.add_comm]
    · have : (encByte b).count 0x2F = 0 :=
        List.count_eq_zero.2 fun hmem => encByte_no_slash b hb _ hmem rfl
      rw [this]
      simp [hb]

theorem encodeKey_count_slash (key : GoString) :
    (encodeKey key).count 0x2F = key.count 0x2F := by
  rw [encodeKey_eq, escapeDots_count_slash, flatMap_encByte_count_slash]

theorem makeDiskKey_count_slash (key : GoString) :
    (makeDiskKey key).count 0x2F = key.count 0x2F := by
  rw [makeDiskKey]
  split_ifs with h
  · rw [h]; decide
  · exact encodeKey_count_slash key

theorem length_splitOn (sep : Byte) (s : GoString) :
    (s.splitOn sep).length = s.count sep + 1 := by
  rw [List.splitOn]
  induction s with
  | nil => simp
  | cons x xs ih =>
    rw [List.splitOnP_cons, List.count_cons]
    by_cases hx : x = sep
    · subst hx
      simp [ih]
    · have h1 : (x == sep) = false := by simpa using hx
      rw [h1]
      simp only [Bool.false_eq_true, if_false, List.length_modifyHead, ih]

theorem encodeKey_append_slash (p q : GoString) :
    encodeKey (p ++ 0x2F :: q) = encodeKey p ++ 0x2F :: encodeKey q := by
  rw [encodeKey_append_cons p q 0x2F (by decide), encByte_slash]
  simp

theorem splitOn_encodeKey (n : Nat) : ∀ key : GoString, key.length ≤ n →
    (encodeKey key).splitOn 0x2F = (key.splitOn 0x2F).map encodeKey := by
  induction n with
  | zero =>
    intro key h
    have : key = [] := List.eq_nil_of_length_eq_zero (by omega)
    subst this
    decide
  | succ n ih =>
    intro key h
    by_cases hmem : (0x2F : Byte) ∈ key
    · obtain ⟨a, b, rfl, ha⟩ := List.eq_append_cons_of_mem hmem
      have hb : b.length ≤ n := by
        simp only [List.length_append, List.length_cons] at h
        omega
      have h1 : ∀ x ∈ a, ¬((x == (0x2F : Byte)) = true) := by
        intro x hx hx2
        exact ha ((beq_iff_eq.1 hx2) ▸ hx)
      have h2 : ∀ x ∈ encodeKey a, ¬((x == (0x2F : Byte)) = true) := by
        intro x hx hx2
        have h3 : (0x2F : Byte) ∈ encodeKey a := (beq_iff_eq.1 hx2) ▸ hx
        have h4 := encodeKey_count_slash a
        rw [List.count_eq_zero.2 ha] at h4
        exact List.count_eq_zero.1 h4 h3
      rw [encodeKey_append_slash, List.splitOn, List.splitOn,
        List.splitOnP_first _ _ h1 _ (by simp), List.splitOnP_first _ _ h2 _ (by simp)]
      have := ih b hb
      rw [List.splitOn, List.splitOn] at this
      rw [this]
      simp
    · have h1 : ∀ x ∈ key, ¬((x == (0x2F : Byte)) = true) := by
        intro x hx hx2
        exact hmem ((beq_iff_eq.1 hx2) ▸ hx)
      have h2 : ∀ x ∈ encodeKey key, ¬((x == (0x2F : Byte)) = true) := by
        intro x hx hx2
        have h3 : (0x2F : Byte) ∈ encodeKey key := (beq_iff_eq.1 hx2) ▸ hx
        have h4 := encodeKey_count_slash key
        rw [List.count_eq_zero.2 hmem] at h4
        exact List.count_eq_zero.1 h4 h3
      rw [List.splitOn, List.splitOn, List.splitOnP_eq_single _ _ h1,
        List.splitOnP_eq_single _ _ h2]
      simp

/-- Claim C9. `makeDiskKey` neither escapes nor introduces a `/`: the encoded path
has as many `/` as the key, splitting it on `/` gives as many segments as
splitting the key, and the segments correspond in order, each being the
encoding of the key segment at the same position (for the key `"."`, the only
key encoded as a whole, the one segment `%2E`). -/
theorem makeDiskKey_preserves_slashes (key : GoString) :
    (makeDiskKey key).count 0x2F = key.count 0x2F
      ∧ ((makeDiskKey key).splitOn 0x2F).length = (key.splitOn 0x2F).length
      ∧ (makeDiskKey key).splitOn 0x2F
          = if key = str "." then [str "%2E"] else (key.splitOn 0x2F).map encodeKey := by
  refine ⟨makeDiskKey_count_slash key, ?_, ?_⟩
  · rw [length_splitOn, length_splitOn, makeDiskKey_count_slash]
  · rw [makeDiskKey]
    split_ifs with h
    · decide
    · exact splitOn_encodeKey key.length key (le_refl _)

/-! ### Decoding: the encoder is injective -/

theorem decodeKey_cons_ne (c : Byte) (hc : c ≠ 0x25) : ∀ x : GoString,
    decodeKey (c :: x) = (if c = 0x2B then 0x20 else c) :: decodeKey x
  | [] => by simp [decodeKey]
  | [a] => by simp [decodeKey]
  | a :: b :: rest => by rw [decodeKey, if_neg hc]

theorem decodeKey_pct (h l : Byte) (x : GoString) :
    decodeKey (0x25 :: h :: l :: x) = Fin.ofNat (unhex h * 16 + unhex l) :: decodeKey x := by
  rw [decodeKey, if_pos rfl]

theorem unhex_upperhex (n : Nat) (h : n < 16) : unhex (upperhex n) = n := by
  have h1 := upperhex_val n h
  unfold unhex
  rw [h1]
  split_ifs <;> omega

theorem decodeKey_encByte (b : Byte) (x : GoString) :
    decodeKey (encByte b ++ x) = b :: decodeKey x := by
  unfold encByte escapeByte
  split_ifs with h1 h2 h3
  · have hb : b ≠ 0x25 ∧ b ≠ 0x2B := by
      simp only [inKeyClass, decide_eq_true_eq] at h1
      constructor <;> (intro h; rw [h] at h1; revert h1; decide)
    rw [List.singleton_append, decodeKey_cons_ne b hb.1, if_neg hb.2]
  · have hb : b = 0x20 := Fin.ext h2
    subst hb
    rw [List.singleton_append, decodeKey_cons_ne _ (by decide)]
    rfl
  · have : (Fin.ofNat (unhex (upperhex (b.val / 16)) * 16 + unhex (upperhex (b.val % 16)))
        : Byte) = b := by
      rw [unhex_upperhex _ (by omega), unhex_upperhex _ (by omega)]
      apply Fin.ext
      simp only [Fin.ofNat]
      omega
    simp only [List.cons_append, List.nil_append]
    rw [decodeKey_pct, this]
  · have hb : b ≠ 0x25 ∧ b ≠ 0x2B := by
      simp only [shouldEscape, Bool.not_eq_true] at h3
      constructor <;> (intro h; rw [h] at h3; revert h3; decide)
    rw [List.singleton_append, decodeKey_cons_ne b hb.1, if_neg hb.2]

theorem escapeDots_dot_cons (y : GoString) (hy : y.head? ≠ some 0x2E) :
    escapeDots (0x2E :: y) = 0x2E :: escapeDots y := by
  cases y with
  | nil => simp [escapeDots]
  | cons b rest =>
    rw [escapeDots, if_neg]
    rintro ⟨_, rfl⟩
    exact hy rfl

theorem flatMap_encByte_head (b : Byte) (hb : b ≠ 0x2E) (rest : GoString) :
    ((b :: rest).flatMap encByte).head? ≠ some 0x2E := by
  rw [List.flatMap_cons]
  have h1 := encByte_ne_nil b
  have h2 := encByte_no_dot b hb
  cases h : encByte b with
  | nil => exact absurd h h1
  | cons y ys =>
    rw [h] at h2
    simp only [List.cons_append, List.head?_cons, ne_eq, Option.some.injEq]
    exact h2 y (by simp)

theorem decodeKey_encodeKey : ∀ key : GoString, decodeKey (encodeKey key) = key
  | [] => by decide
  | [a] => by
    rw [encodeKey_eq]
    by_cases ha : a = 0x2E
    · subst ha; decide
    · have := escapeDots_append_nodot [] (encByte a) [] (encByte_ne_nil a) (encByte_no_dot a ha)
      simp only [List.nil_append, List.append_nil, escapeDots] at this
      simp only [List.flatMap_cons, List.flatMap_nil, List.append_nil, this]
      have h2 := decodeKey_encByte a []
      simpa [decodeKey] using h2
  | a :: b :: rest => by
    have ih1 := decodeKey_encodeKey rest
    have ih2 := decodeKey_encodeKey (b :: rest)
    rw [encodeKey_eq] at ih1 ih2 ⊢
    by_cases ha : a = 0x2E
    · subst ha
      by_cases hb : b = 0x2E
      · subst hb
        rw [List.flatMap_cons, List.flatMap_cons, encByte_dot, List.singleton_append,
          List.singleton_append, escapeDots, if_pos ⟨rfl, rfl⟩]
        simp only [List.cons_append, List.nil_append]
        rw [decodeKey_pct, decodeKey_pct, ih1]
        rfl
      · rw [List.flatMap_cons, encByte_dot, List.singleton_append,
          escapeDots_dot_cons _ (flatMap_encByte_head b hb rest),
          decodeKey_cons_ne _ (by decide), ih2]
        rfl
    · have := escapeDots_append_nodot ((b :: rest).flatMap encByte) (encByte a) []
        (encByte_ne_nil a) (encByte_no_dot a ha)
      simp only [List.nil_append, escapeDots] at this
      rw [List.flatMap_cons, this, decodeKey_encByte, ih2]

theorem decodeKey_makeDiskKey (key : GoString) : decodeKey (makeDiskKey key) = key := by
  rw [makeDiskKey]
  split_ifs with h
  · rw [h]; decide
  · exact decodeKey_encodeKey key

/-- Claim C10. `makeDiskKey` is injective: two distinct keys never have the same
encoded path.  In particular `.` and `%2E`, `..` and `%2E%2E`, and a space and
`+` do not collide. -/
theorem makeDiskKey_injective :
    (∀ k1 k2 : GoString, k1 ≠ k2 → makeDiskKey k1 ≠ makeDiskKey k2)
      ∧ makeDiskKey (str ".") ≠ makeDiskKey (str "%2E")
      ∧ makeDiskKey (str "..") ≠ makeDiskKey (str "%2E%2E")
      ∧ makeDiskKey (str " ") ≠ makeDiskKey (str "+") := by
  refine ⟨?_, by decide, by decide, by decide⟩
  intro k1 k2 hne heq
  apply hne
  rw [← decodeKey_makeDiskKey k1, ← decodeKey_makeDiskKey k2, heq]

/-! ### The bytes outside the class -/

theorem encByte_of_not_inKeyClass (b : Byte) (hb : inKeyClass b.val = false) :
    encByte b = escapedForm b ∧ b ≠ 0x2E := by
  have hdot : b ≠ 0x2E := by
    intro h; rw [h] at hb; revert hb; decide
  refine ⟨?_, hdot⟩
  unfold encByte escapedForm escapeByte percentEscape
  rw [hb]
  simp only [Bool.false_eq_true, if_false]
  by_cases h1 : b = 0x20
  · subst h1; decide
  · have h1v : ¬ b.val = 0x20 := fun h => h1 (Fin.ext h)
    rw [if_neg h1, if_neg h1v]
    by_cases h2 : b = 0x7E
    · subst h2; decide
    · have h2v : ¬ b.val = 0x7E := fun h => h2 (Fin.ext h)
      rw [if_neg h2]
      have : shouldEscape b = true := by
        simp only [inKeyClass, decide_eq_false_iff_not] at hb
        unfold shouldEscape
        split_ifs <;> first | rfl | omega
      rw [if_pos this]

theorem encodeKey_nil : encodeKey [] = [] := by decide

theorem encodeKey_append_escaped (post : GoString) : ∀ (m pre : GoString), m ≠ [] →
    (∀ b ∈ m, inKeyClass b.val = false) →
    encodeKey (pre ++ m ++ post) = encodeKey pre ++ m.flatMap escapedForm ++ encodeKey post
  | [], _, hm, _ => absurd rfl hm
  | [b], pre, _, h => by
    obtain ⟨h1, h2⟩ := encByte_of_not_inKeyClass b (h b (by simp))
    rw [List.append_assoc, List.singleton_append, encodeKey_append_cons pre _ b h2, h1]
    simp
  | b :: c :: m, pre, _, h => by
    obtain ⟨h1, h2⟩ := encByte_of_not_inKeyClass b (h b (by simp))
    have ih := encodeKey_append_escaped post (c :: m) [] (by simp)
      fun x hx => h x (List.mem_cons_of_mem _ hx)
    rw [List.nil_append, encodeKey_nil, List.nil_append] at ih
    rw [List.append_assoc, List.cons_append, encodeKey_append_cons pre _ b h2, ih, h1]
    simp

/-- Claim C2, as the code has it. Every byte of the key outside
`[-._/a-zA-Z0-9]` other than a space and `~` (so every byte of a multi-byte or
undecodable character) is replaced by `%` and its two hexadecimal digits; a
space is replaced by `+` and `~` is left as it is.  The bytes before and after
such a stretch are encoded independently of it. -/
theorem makeDiskKey_escapes_outside_class (pre m post : GoString) (hm : m ≠ [])
    (hout : ∀ b ∈ m, inKeyClass b.val = false) :
    makeDiskKey (pre ++ m ++ post)
        = encodeKey pre ++ m.flatMap escapedForm ++ encodeKey post
      ∧ (∀ b ∈ m, b ≠ 0x20 → b ≠ 0x7E → escapedForm b = percentEscape b)
      ∧ escapedForm 0x20 = str "+" ∧ escapedForm 0x7E = str "~" := by
  refine ⟨?_, ?_, by decide, by decide⟩
  · rw [makeDiskKey, if_neg, encodeKey_append_escaped post m pre hm hout]
    intro h
    cases m with
    | nil => exact hm rfl
    | cons b m =>
      have hb := (encByte_of_not_inKeyClass b (hout b (by simp))).2
      have hmem : b ∈ pre ++ (b :: m) ++ post := by simp
      rw [h, str_dot] at hmem
      exact hb (List.mem_singleton.1 hmem)
  · intro b _ h1 h2
    rw [escapedForm, if_neg h1, if_neg h2]

set_option maxRecDepth 100000 in
theorem makeDiskKey_escapes_outside_class_witness :
    makeDiskKey (str "a" ++ str "é#" ++ str "b")
        = encodeKey (str "a") ++ (str "é#").flatMap escapedForm ++ encodeKey (str "b")
      ∧ (∀ b ∈ str "é#", b ≠ 0x20 → b ≠ 0x7E → escapedForm b = percentEscape b)
      ∧ escapedForm 0x20 = str "+" ∧ escapedForm 0x7E = str "~" :=
  makeDiskKey_escapes_outside_class (str "a") (str "é#") (str "b") (by decide) (by decide)

/-- Counterexample to claim C2 as stated. A space and a tilde are outside the class
`[-._/a-zA-Z0-9]`, yet `makeDiskKey` turns the space into `+`, which is not a
percent escape, and leaves the tilde unescaped. -/
theorem makeDiskKey_space_tilde_not_percent_escaped :
    inKeyClass 0x20 = false ∧ inKeyClass 0x7E = false
      ∧ makeDiskKey (str "a b") = str "a+b"
      ∧ makeDiskKey (str "a b") ≠ str "a" ++ percentEscape 0x20 ++ str "b"
      ∧ makeDiskKey (str "a~b") = str "a~b"
      ∧ makeDiskKey (str "a~b") ≠ str "a" ++ percentEscape 0x7E ++ str "b" := by
  decide

/-! ## The error-caching resolver -/

/-- Claim C7. When the wrapped `Resolve` returns an envelope `e` and no error,
`errorResolver.Resolve` returns `e.Value` in every case, and an error exactly
when `e.Error` is not empty: that error reads `failed to resolve cache: `
followed by `e.Error`, and for an empty `e.Error` the error is nil. -/
theorem errorResolver_Resolve_envelope {σ T : Type} (r : errorResolver σ T) (key : GoString)
    (resolver : resolverFunc σ T) (s s1 : σ) (e : errResponse T)
    (h : r.resolver.Resolve key (errorResolver.adapt resolver) s = ((e, none), s1)) :
    (r.Resolve key resolver s).1.1 = e.Value
      ∧ ((r.Resolve key resolver s).1.2 ≠ none ↔ e.Error ≠ [])
      ∧ (e.Error ≠ [] → (r.Resolve key resolver s).1.2
          = some ⟨str "failed to resolve cache: " ++ e.Error⟩)
      ∧ (e.Error = [] → (r.Resolve key resolver s).1.2 = none)
      ∧ (r.Resolve key resolver s).2 = s1 := by
  by_cases he : e.Error = []
  · simp [errorResolver.Resolve, h, he]
  · simp [errorResolver.Resolve, h, he, failedToResolve]

theorem errorResolver_Resolve_envelope_witness :
    ((errorResolver.mk (memoResolver (errResponse Nat))).Resolve (str "k")
        (failingProducer _ ⟨str "boom"⟩) ⟨[], 0⟩).1.1 = (⟨str "boom", 0⟩ : errResponse Nat).Value
      ∧ (((errorResolver.mk (memoResolver (errResponse Nat))).Resolve (str "k")
          (failingProducer _ ⟨str "boom"⟩) ⟨[], 0⟩).1.2 ≠ none
        ↔ (⟨str "boom", 0⟩ : errResponse Nat).Error ≠ [])
      ∧ ((⟨str "boom", 0⟩ : errResponse Nat).Error ≠ [] →
        ((errorResolver.mk (memoResolver (errResponse Nat))).Resolve (str "k")
          (failingProducer _ ⟨str "boom"⟩) ⟨[], 0⟩).1.2
          = some ⟨str "failed to resolve cache: "
              ++ (⟨str "boom", 0⟩ : errResponse Nat).Error⟩)
      ∧ ((⟨str "boom", 0⟩ : errResponse Nat).Error = [] →
        ((errorResolver.mk (memoResolver (errResponse Nat))).Resolve (str "k")
          (failingProducer _ ⟨str "boom"⟩) ⟨[], 0⟩).1.2 = none)
      ∧ ((errorResolver.mk (memoResolver (errResponse Nat))).Resolve (str "k")
          (failingProducer _ ⟨str "boom"⟩) ⟨[], 0⟩).2
        = ⟨[(str "k", ⟨str "boom", 0⟩)], 1⟩ :=
  errorResolver_Resolve_envelope (errorResolver.mk (memoResolver (errResponse Nat))) (str "k")
    (failingProducer _ ⟨str "boom"⟩) ⟨[], 0⟩ ⟨[(str "k", ⟨str "boom", 0⟩)], 1⟩
    ⟨str "boom", 0⟩ (by decide)

/-- Claim C8, as the code has it. When the wrapped `Resolve` itself fails with
an error `err`, `errorResolver.Resolve` returns exactly `err`, unchanged,
together with the `Value` field of the envelope the wrapped call returned next
to the error; that is the zero value of `T` when the wrapped call returned the
zero envelope. -/
theorem errorResolver_Resolve_propagates {σ T : Type} [Inhabited T] (r : errorResolver σ T)
    (key : GoString) (resolver : resolverFunc σ T) (s s1 : σ) (v : errResponse T)
    (err : GoError)
    (h : r.resolver.Resolve key (errorResolver.adapt resolver) s = ((v, some err), s1)) :
    r.Resolve key resolver s = ((v.Value, some err), s1)
      ∧ (v = ⟨[], default⟩ → r.Resolve key resolver s = ((default, some err), s1)) := by
  have h1 : r.Resolve key resolver s = ((v.Value, some err), s1) := by
    simp [errorResolver.Resolve, h]
  refine ⟨h1, ?_⟩
  intro hv
  rw [h1, hv]

theorem errorResolver_Resolve_propagates_witness :
    (errorResolver.mk brokenResolver).Resolve (str "k") (fun s => ((1, none), s)) ()
        = (((⟨[], 7⟩ : errResponse Nat).Value, some ⟨str "cache layer"⟩), ())
      ∧ ((⟨[], 7⟩ : errResponse Nat) = ⟨[], default⟩ →
        (errorResolver.mk brokenResolver).Resolve (str "k") (fun s => ((1, none), s)) ()
          = ((default, some ⟨str "cache layer"⟩), ())) :=
  errorResolver_Resolve_propagates (errorResolver.mk brokenResolver) (str "k")
    (fun s => ((1, none), s)) () () ⟨[], 7⟩ ⟨str "cache layer"⟩ rfl

/-- Counterexample to claim C8 as stated. A wrapped resolver that fails while returning the
envelope `{Value: 7}`: `errorResolver.Resolve` passes the error on, but the
value it returns is `7`, not the zero value of the type. -/
theorem errorResolver_Resolve_value_not_zero :
    brokenResolver.Resolve (str "k") (errorResolver.adapt fun s => ((1, none), s)) ()
        = ((⟨[], 7⟩, some ⟨str "cache layer"⟩), ())
      ∧ (errorResolver.mk brokenResolver).Resolve (str "k") (fun s => ((1, none), s)) ()
        = ((7, some ⟨str "cache layer"⟩), ())
      ∧ (errorResolver.mk brokenResolver).Resolve (str "k") (fun s => ((1, none), s)) ()
        ≠ (((default : Nat), some ⟨str "cache layer"⟩), ()) := by
  decide

/-- What the resolver does cache. For a producer that fails with an error whose
text is not empty: on the call where the wrapped resolver misses, runs the
adapted producer and returns its envelope, and on a later call where the
wrapped resolver replays that envelope without running the producer,
`errorResolver.Resolve` returns a non-nil error, and both errors read
`failed to resolve cache: ` followed by the text of the producer's error. -/
theorem errorResolver_Resolve_caches_failure {σ T : Type} (r : errorResolver σ T)
    (key : GoString) (resolver resolver2 : resolverFunc σ T) (s s2 : σ) (e : GoError)
    (hfail : (resolver s).1.2 = some e)
    (htext : e.msg ≠ [])
    (hmiss : (r.resolver.Resolve key (errorResolver.adapt resolver) s).1
      = (errorResolver.adapt resolver s).1)
    (hreplay : ∀ p : resolverFunc σ (errResponse T),
      r.resolver.Resolve key p s2 = (((errorResolver.adapt resolver s).1.1, none), s2)) :
    (r.Resolve key resolver s).1.2 = some ⟨str "failed to resolve cache: " ++ e.msg⟩
      ∧ (r.Resolve key resolver2 s2).1.2 = some ⟨str "failed to resolve cache: " ++ e.msg⟩
      ∧ (r.Resolve key resolver2 s2).2 = s2 := by
  have henv : (errorResolver.adapt resolver s).1.1.Error = e.msg := by
    simp [errorResolver.adapt, hfail]
  have hnone : (errorResolver.adapt resolver s).1.2 = none := rfl
  refine ⟨?_, ?_, ?_⟩
  · simp only [errorResolver.Resolve, hmiss, hnone, henv, failedToResolve]
    simp [htext]
  · simp only [errorResolver.Resolve, hreplay, henv, failedToResolve]
    simp [htext]
  · simp only [errorResolver.Resolve, hreplay, henv]
    simp [htext]

theorem errorResolver_Resolve_caches_failure_witness :
    ((errorResolver.mk (memoResolver (errResponse Nat))).Resolve (str "k")
        (failingProducer _ ⟨str "boom"⟩) ⟨[], 0⟩).1.2
        = some ⟨str "failed to resolve cache: " ++ (GoError.mk (str "boom")).msg⟩
      ∧ ((errorResolver.mk (memoResolver (errResponse Nat))).Resolve (str "k")
        (failingProducer _ ⟨str "again"⟩) ⟨[(str "k", ⟨str "boom", 0⟩)], 1⟩).1.2
        = some ⟨str "failed to resolve cache: " ++ (GoError.mk (str "boom")).msg⟩
      ∧ ((errorResolver.mk (memoResolver (errResponse Nat))).Resolve (str "k")
        (failingProducer _ ⟨str "again"⟩) ⟨[(str "k", ⟨str "boom", 0⟩)], 1⟩).2
        = ⟨[(str "k", ⟨str "boom", 0⟩)], 1⟩ :=
  errorResolver_Resolve_caches_failure (errorResolver.mk (memoResolver (errResponse Nat)))
    (str "k") (failingProducer _ ⟨str "boom"⟩) (failingProducer _ ⟨str "again"⟩)
    ⟨[], 0⟩ ⟨[(str "k", ⟨str "boom", 0⟩)], 1⟩ ⟨str "boom"⟩ rfl (by decide) (by decide)
    (fun _ => rfl)

/-- Claim C6, where the code departs from it. A producer that fails with an
error whose text is empty (`errors.New("")`): the wrapped resolver misses and
runs the adapted producer, and `errorResolver.Resolve` returns a nil error
instead of the failure, on that call and on the later call that replays the
stored envelope. -/
theorem errorResolver_Resolve_empty_error_text :
    (failingProducer (errResponse Nat) ⟨[]⟩ ⟨[], 0⟩).1.2 = some ⟨[]⟩
      ∧ (errorResolver.mk (memoResolver (errResponse Nat))).Resolve (str "k")
          (failingProducer _ ⟨[]⟩) ⟨[], 0⟩
        = ((0, none), ⟨[(str "k", ⟨[], 0⟩)], 1⟩)
      ∧ (errorResolver.mk (memoResolver (errResponse Nat))).Resolve (str "k")
          (failingProducer _ ⟨[]⟩) ⟨[(str "k", ⟨[], 0⟩)], 1⟩
        = ((0, none), ⟨[(str "k", ⟨[], 0⟩)], 1⟩) := by
  decide

/-! ## Expiry -/

theorem Since_le (now t : Int) (h : 0 ≤ now - t) : Since now t ≤ now - t := by
  unfold Since maxDuration minDuration
  split_ifs <;> omega

theorem Read_of_Open (d : filesystemCache) (st : OsState) (now : Int) (key : GoString)
    (f : File) (info : FileInfo)
    (hopen : d.fs.Open st (makeDiskKey key) = .ok f) (hstat : f.Stat = some info) :
    d.Read st now key
      = if Since now info.ModTime > d.ttl then (none, some errExpired) else (some f, none) := by
  simp only [filesystemCache.Read, hopen, hstat]

/-- Claim C3, as the code has it. For a key whose encoded path opens as a file
with modification time `m`, `Read` fails with `errExpired` exactly when the
elapsed time `time.Since(m)` exceeds the ttl, and an elapsed time equal to the
ttl (or below it) is a hit that returns the file and no error.  The elapsed
time is `now - m` limited to the range of a `Duration`: it is `now - m`
whenever that fits, and for any ttl that is a `Duration` below the largest one
the test is exactly `now - m > ttl`. -/
theorem Read_expired_iff (d : filesystemCache) (st : OsState) (now : Int) (key : GoString)
    (f : File) (info : FileInfo)
    (hopen : d.fs.Open st (makeDiskKey key) = .ok f) (hstat : f.Stat = some info) :
    (d.Read st now key = (none, some errExpired) ↔ Since now info.ModTime > d.ttl)
      ∧ (Since now info.ModTime = d.ttl → d.Read st now key = (some f, none))
      ∧ (Since now info.ModTime ≤ d.ttl → d.Read st now key = (some f, none))
      ∧ (minDuration ≤ now - info.ModTime → now - info.ModTime ≤ maxDuration →
          Since now info.ModTime = now - info.ModTime)
      ∧ (minDuration ≤ d.ttl → d.ttl < maxDuration →
          (d.Read st now key = (none, some errExpired) ↔ now - info.ModTime > d.ttl)) := by
  have hread := Read_of_Open d st now key f info hopen hstat
  have hiff : d.Read st now key = (none, some errExpired) ↔ Since now info.ModTime > d.ttl := by
    rw [hread]
    split_ifs with h
    · simp [h]
    · simp [h]
  have hfresh : Since now info.ModTime ≤ d.ttl → d.Read st now key = (some f, none) := by
    intro h
    rw [hread, if_neg (by omega)]
  refine ⟨hiff, fun h => hfresh (le_of_eq h), hfresh, ?_, ?_⟩
  · intro h1 h2
    unfold Since
    rw [if_neg (by omega), if_neg (by omega)]
  · intro h1 h2
    rw [hiff]
    unfold Since
    split_ifs <;> constructor <;> intro h <;> omega

set_option maxRecDepth 100000 in
theorem Read_expired_iff_witness :
    (exCache.Read ((exCache.Write exTree 5 (str "k") (str "X")).2) 1005 (str "k")
          = (none, some errExpired)
        ↔ Since 1005 (FileInfo.mk 5 false).ModTime > exCache.ttl)
      ∧ (Since 1005 (FileInfo.mk 5 false).ModTime = exCache.ttl →
        exCache.Read ((exCache.Write exTree 5 (str "k") (str "X")).2) 1005 (str "k")
          = (some ⟨str "X", some ⟨5, false⟩⟩, none))
      ∧ (Since 1005 (FileInfo.mk 5 false).ModTime ≤ exCache.ttl →
        exCache.Read ((exCache.Write exTree 5 (str "k") (str "X")).2) 1005 (str "k")
          = (some ⟨str "X", some ⟨5, false⟩⟩, none))
      ∧ (minDuration ≤ 1005 - (FileInfo.mk 5 false).ModTime →
        1005 - (FileInfo.mk 5 false).ModTime ≤ maxDuration →
          Since 1005 (FileInfo.mk 5 false).ModTime = 1005 - (FileInfo.mk 5 false).ModTime)
      ∧ (minDuration ≤ exCache.ttl → exCache.ttl < maxDuration →
          (exCache.Read ((exCache.Write exTree 5 (str "k") (str "X")).2) 1005 (str "k")
              = (none, some errExpired)
            ↔ 1005 - (FileInfo.mk 5 false).ModTime > exCache.ttl)) :=
  Read_expired_iff exCache ((exCache.Write exTree 5 (str "k") (str "X")).2) 1005 (str "k")
    ⟨str "X", some ⟨5, false⟩⟩ ⟨5, false⟩ (by decide) rfl

set_option maxRecDepth 100000 in
/-- Counterexample to claim C3 as stated. With the largest ttl a `Duration` can
hold, a file written at instant 0 and read more than `2 ^ 63` nanoseconds
later has `now - m > ttl`, yet `time.Since` stops at the largest `Duration`,
which does not exceed the ttl: `Read` returns the file and no error. -/
theorem Read_fresh_beyond_largest_ttl :
    (exCacheMax.Write exTree 0 (str "dir/k") (str "X")).1 = none
      ∧ exCacheMax.fs.Open (exCacheMax.Write exTree 0 (str "dir/k") (str "X")).2
          (makeDiskKey (str "dir/k")) = .ok ⟨str "X", some ⟨0, false⟩⟩
      ∧ (2 ^ 63 + 5 : Int) - 0 > exCacheMax.ttl
      ∧ exCacheMax.Read (exCacheMax.Write exTree 0 (str "dir/k") (str "X")).2 (2 ^ 63 + 5)
          (str "dir/k")
        = (some ⟨str "X", some ⟨0, false⟩⟩, none)
      ∧ exCacheMax.Read (exCacheMax.Write exTree 0 (str "dir/k") (str "X")).2 (2 ^ 63 + 5)
          (str "dir/k")
        ≠ (none, some errExpired) := by
  decide

/-! ## Writing, then reading -/

theorem osCreate_then_osOpen (st st1 : OsState) (now : Int) (path contents : GoString)
    (h : osCreate st now path contents = (none, st1)) :
    osOpen st1 path = .ok ⟨contents, some ⟨now, false⟩⟩ := by
  have hset : st1 = st.set path ⟨false, contents, now⟩ := by
    unfold osCreate at h
    split at h
    · split_ifs at h
      · simp at h
      · simp only [Prod.mk.injEq, true_and] at h
        exact h.symm
    · split at h
      · simp only [Prod.mk.injEq, true_and] at h
        exact h.symm
      · split at h
        · simp at h
        · split_ifs at h
          · simp only [Prod.mk.injEq, true_and] at h
            exact h.symm
          · simp at h
  subst hset
  simp [osOpen, OsState.set]

theorem Create_then_Open : ∀ (fs : Fs) (st st1 : OsState) (now : Int)
    (path contents : GoString), fs.Create st now path contents = (none, st1) →
    fs.Open st1 path = .ok ⟨contents, some ⟨now, false⟩⟩
  | .OsFs, st, st1, now, path, contents, h => by
    rw [Fs.Create] at h
    rw [Fs.Open]
    exact osCreate_then_osOpen st st1 now path contents h
  | .BasePathFs source base, st, st1, now, path, contents, h => by
    rw [Fs.Create] at h
    rw [Fs.Open]
    cases hr : RealPath base path with
    | error e => rw [hr] at h; simp at h
    | ok name =>
      rw [hr] at h
      exact Create_then_Open source st st1 now name contents h

theorem WriteReader_then_Open (fs : Fs) (st st1 : OsState) (now : Int)
    (path contents : GoString) (h : WriteReader fs st now path contents = (none, st1)) :
    fs.Open st1 path = .ok ⟨contents, some ⟨now, false⟩⟩ := by
  unfold WriteReader at h
  simp only at h
  generalize (if (Split path).1 ≠ [] then fs.MkdirAll st now (Split path).1 else (none, st))
    = made at h
  split at h
  · rename_i e _
    by_cases h1 : e ≠ FsError.ErrExist
    · rw [if_pos h1] at h
      simp at h
    · rw [if_neg h1] at h
      exact Create_then_Open fs _ st1 now path contents h
  · exact Create_then_Open fs _ st1 now path contents h

/-- Claim C5, as the code has it. On a filesystem-backed cache, whenever
`Write(key, content)` succeeds, a `Read(key)` made while the time elapsed since
the write does not exceed the ttl succeeds and returns a stream whose bytes are
`content` (both address the path `makeDiskKey(key)`), and a `Read(key)` made
once the elapsed time exceeds the ttl fails with `errExpired`. -/
theorem Write_then_Read (d : filesystemCache) (st st1 : OsState) (now later : Int)
    (key contents : GoString)
    (hwrite : d.Write st now key contents = (none, st1))
    (hnow : now ≤ later) :
    (later - now ≤ d.ttl →
        d.Read st1 later key = (some ⟨contents, some ⟨now, false⟩⟩, none))
      ∧ (Since later now > d.ttl → d.Read st1 later key = (none, some errExpired))
      ∧ (d.ttl < maxDuration → later - now > d.ttl →
          d.Read st1 later key = (none, some errExpired)) := by
  have hopen := WriteReader_then_Open d.fs st st1 now (makeDiskKey key) contents hwrite
  have hread := Read_of_Open d st1 later key _ ⟨now, false⟩ hopen rfl
  simp only at hread
  have hexp : Since later now > d.ttl → d.Read st1 later key = (none, some errExpired) := by
    intro h
    rw [hread, if_pos h]
  refine ⟨?_, hexp, ?_⟩
  · intro httl
    have hle : Since later now ≤ d.ttl := le_trans (Since_le later now (by omega)) httl
    rw [hread, if_neg (by omega)]
  · intro h1 h2
    apply hexp
    unfold Since minDuration
    unfold maxDuration at h1 ⊢
    split_ifs <;> omega

set_option maxRecDepth 100000 in
theorem Write_then_Read_witness :
    ((905 - 5 ≤ exCache.ttl →
        exCache.Read (exCache.Write exTree 5 (str "dir/k") (str "X")).2 905 (str "dir/k")
          = (some ⟨str "X", some ⟨5, false⟩⟩, none))
      ∧ (Since 905 5 > exCache.ttl →
        exCache.Read (exCache.Write exTree 5 (str "dir/k") (str "X")).2 905 (str "dir/k")
          = (none, some errExpired))
      ∧ (exCache.ttl < maxDuration → 905 - 5 > exCache.ttl →
        exCache.Read (exCache.Write exTree 5 (str "dir/k") (str "X")).2 905 (str "dir/k")
          = (none, some errExpired)))
      ∧ exCache.Read (exCache.Write exTree 5 (str "dir/k") (str "X")).2 905 (str "dir/k")
        = (some ⟨str "X", some ⟨5, false⟩⟩, none)
      ∧ exCache.Read (exCache.Write exTree 5 (str "dir/k") (str "X")).2 1006 (str "dir/k")
        = (none, some errExpired) :=
  ⟨Write_then_Read exCache exTree (exCache.Write exTree 5 (str "dir/k") (str "X")).2 5 905
    (str "dir/k") (str "X") (Prod.ext (by decide) rfl) (by decide), by decide, by decide⟩

set_option maxRecDepth 100000 in
/-- Counterexample to claim C5 as stated. With ttl zero, which is not negative,
a `Write` that succeeds is followed by a `Read` one nanosecond later that
fails with `errExpired`: only a `Read` at the very instant of the file's
modification time would hit.  And for the empty key the encoded path is empty
and names the root directory of the namespace itself: `Write` fails, because a
directory cannot be created as a file, and nothing is stored. -/
theorem Write_then_Read_can_fail :
    (0 : Int) ≤ exCacheZero.ttl
      ∧ (exCacheZero.Write exTree 5 (str "dir/k") (str "X")).1 = none
      ∧ exCacheZero.Read (exCacheZero.Write exTree 5 (str "dir/k") (str "X")).2 6
          (str "dir/k")
        = (none, some errExpired)
      ∧ (NewFromDir emptyTree 0 (str "/cache") 1000).1 = (some exStore, none)
      ∧ (exStore.GetCache exTree0 1 (str "a") (str "1")).1 = .filesystemCache exCache
      ∧ makeDiskKey (str "") = str ""
      ∧ (exCache.Write exTree 2 (str "") (str "X")).1 = some .EISDIR
      ∧ (exCache.Read (exCache.Write exTree 2 (str "") (str "X")).2 2 (str "")).1
        = some ⟨str "", some ⟨1, true⟩⟩ := by
  decide

/-! ## Namespaces: paths of plain names -/

theorem splitOn_append_cons (sep : Byte) (b : GoString) : ∀ a : GoString,
    (a ++ sep :: b).splitOn sep = a.splitOn sep ++ b.splitOn sep
  | [] => by
    simp [List.splitOn, List.splitOnP_cons]
  | x :: a => by
    have ih := splitOn_append_cons sep b a
    simp only [List.splitOn] at ih ⊢
    rw [List.cons_append, List.splitOnP_cons, List.splitOnP_cons, ih]
    split_ifs with h
    · rfl
    · cases h2 : List.splitOnP (fun x => x == sep) a with
      | nil => exact absurd h2 (List.splitOnP_ne_nil _ a)
      | cons hd tl => rfl

theorem mem_splitOn_no_sep (sep : Byte) : ∀ (s : GoString) (seg : GoString),
    seg ∈ s.splitOn sep → sep ∉ seg
  | [], seg, h => by
    simp only [List.splitOn_nil, List.mem_singleton] at h
    subst h
    simp
  | x :: s, seg, h => by
    have ih := mem_splitOn_no_sep sep s
    simp only [List.splitOn] at ih h
    rw [List.splitOnP_cons] at h
    cases h2 : List.splitOnP (fun x => x == sep) s with
    | nil => exact absurd h2 (List.splitOnP_ne_nil _ s)
    | cons hd tl =>
      rw [h2] at h ih
      split_ifs at h with hx
      · rcases List.mem_cons.1 h with rfl | h
        · simp
        · exact ih seg h
      · simp only [List.modifyHead_cons, List.mem_cons] at h
        rcases h with rfl | h
        · have := ih hd (by simp)
          simp only [List.mem_cons, not_or]
          refine ⟨?_, this⟩
          intro hsx
          exact hx (by simp [hsx])
        · exact ih seg (by simp [h])

theorem cleanStep_plain (rooted : Bool) (stack : List GoString) (seg : GoString)
    (h : plainName seg) : cleanStep rooted stack seg = seg :: stack := by
  obtain ⟨h1, _, h3, h4⟩ := h
  simp only [cleanStep, h1, h3, h4, false_or, if_false]

theorem foldl_cleanStep_plain (rooted : Bool) : ∀ (x : List GoString) (stack : List GoString),
    (∀ s ∈ x, plainName s) → x.foldl (cleanStep rooted) stack = x.reverse ++ stack
  | [], stack, _ => by simp
  | s :: x, stack, h => by
    rw [List.foldl_cons, cleanStep_plain rooted stack s (h s (by simp)),
      foldl_cleanStep_plain rooted x _ fun y hy => h y (List.mem_cons_of_mem _ hy)]
    simp

theorem cleanStep_mem (rooted : Bool) (stack : List GoString) (seg x : GoString)
    (h : x ∈ cleanStep rooted stack seg) : x ∈ stack ∨ (x = seg ∧ seg ≠ []) := by
  unfold cleanStep at h
  by_cases h1 : seg = [] ∨ seg = str "."
  · rw [if_pos h1] at h
    exact Or.inl h
  · rw [if_neg h1] at h
    have hne : seg ≠ [] := fun h0 => h1 (Or.inl h0)
    by_cases h2 : seg = str ".."
    · rw [if_pos h2] at h
      cases stack with
      | nil =>
        cases rooted with
        | true => simp at h
        | false =>
          simp only [Bool.false_eq_true, if_false, List.mem_singleton] at h
          exact Or.inr ⟨h, hne⟩
      | cons top below =>
        simp only at h
        by_cases h3 : top = str ".."
        · rw [if_pos h3] at h
          rcases List.mem_cons.1 h with h | h
          · exact Or.inr ⟨h, hne⟩
          · exact Or.inl h
        · rw [if_neg h3] at h
          exact Or.inl (List.mem_cons_of_mem _ h)
    · rw [if_neg h2] at h
      rcases List.mem_cons.1 h with h | h
      · exact Or.inr ⟨h, hne⟩
      · exact Or.inl h

theorem foldl_cleanStep_mem (rooted : Bool) : ∀ (b : List GoString) (stack : List GoString)
    (x : GoString), x ∈ b.foldl (cleanStep rooted) stack → x ∈ stack ∨ (x ∈ b ∧ x ≠ [])
  | [], stack, x, h => Or.inl h
  | s :: b, stack, x, h => by
    rw [List.foldl_cons] at h
    rcases foldl_cleanStep_mem rooted b _ x h with h1 | ⟨h1, h2⟩
    · rcases cleanStep_mem rooted stack s x h1 with h3 | ⟨rfl, h3⟩
      · exact Or.inl h3
      · exact Or.inr ⟨by simp, h3⟩
    · exact Or.inr ⟨List.mem_cons_of_mem _ h1, h2⟩

theorem plainName_isSeg (x : GoString) (h : plainName x) : isSeg x :=
  ⟨h.1, h.2.1⟩

theorem intercalate_cons_cons (sep a b : GoString) (l : List GoString) :
    sep.intercalate (a :: b :: l) = a ++ sep ++ sep.intercalate (b :: l) := by
  simp [List.intercalate]

theorem intercalate_ne_nil (sep : GoString) : ∀ (l : List GoString) (x : GoString),
    x ∈ l → x ≠ [] → sep.intercalate l ≠ []
  | [], _, h, _ => by simp at h
  | [a], x, h, hx => by
    simp only [List.mem_singleton] at h
    subst h
    simpa [List.intercalate] using hx
  | a :: b :: l, x, h, hx => by
    rw [intercalate_cons_cons]
    rcases List.mem_cons.1 h with rfl | h
    · simp [hx]
    · have := intercalate_ne_nil sep (b :: l) x h hx
      simp [this]

theorem renderPath_ne_nil (rooted : Bool) (segs : List GoString) :
    renderPath rooted segs ≠ [] := by
  unfold renderPath
  simp only
  by_cases h : (if rooted = true then [0x2F] else []) ++ [0x2F].intercalate segs = ([] : GoString)
  · rw [if_pos h]
    decide
  · rw [if_neg h]
    exact h

theorem Clean_ne_nil (path : GoString) : Clean path ≠ [] :=
  renderPath_ne_nil _ _

theorem renderPath_eq_pathString (rooted : Bool) (segs : List GoString) (x : GoString)
    (hx : x ∈ segs) (hne : x ≠ []) : renderPath rooted segs = pathString rooted segs := by
  have h1 := intercalate_ne_nil [0x2F] segs x hx hne
  unfold renderPath pathString
  cases rooted with
  | false =>
    simp only [Bool.false_eq_true, if_false, List.nil_append]
    rw [if_neg h1]
  | true =>
    simp only [if_true]
    cases segs with
    | nil => simp at hx
    | cons a l =>
      have h2 : ([[]] : List GoString) ++ a :: l = [] :: a :: l := rfl
      rw [h2, intercalate_cons_cons]
      simp

theorem splitOn_pathString (rooted : Bool) (segs : List GoString) (hne : segs ≠ [])
    (h : ∀ x ∈ segs, (0x2F : Byte) ∉ x) :
    (pathString rooted segs).splitOn 0x2F = (if rooted then [[]] else []) ++ segs := by
  unfold pathString
  apply List.splitOn_intercalate
  · intro l hl
    rcases List.mem_append.1 hl with hl | hl
    · split_ifs at hl
      · simp only [List.mem_singleton] at hl
        subst hl
        simp
      · simp at hl
    · exact h l hl
  · simp [hne]

theorem head_pathString (rooted : Bool) (segs : List GoString) (hne : segs ≠ [])
    (h : ∀ x ∈ segs, isSeg x) :
    decide ((pathString rooted segs).head? = some 0x2F) = rooted := by
  cases segs with
  | nil => exact absurd rfl hne
  | cons a l =>
    obtain ⟨ha1, ha2⟩ := h a (by simp)
    cases a with
    | nil => exact absurd rfl ha1
    | cons c a =>
      have hc : c ≠ 0x2F := fun hc => ha2 (by simp [hc])
      cases rooted with
      | true =>
        simp only [pathString, if_true, List.singleton_append]
        rw [intercalate_cons_cons]
        simp
      | false =>
        simp only [pathString, Bool.false_eq_true, if_false, List.nil_append]
        cases l with
        | nil => simp [List.intercalate, hc]
        | cons b l =>
          rw [intercalate_cons_cons]
          simp [hc]

/-- Cleaning a path whose elements end in a list of plain names keeps these
names at the end. -/
theorem Clean_of_splitOn (z : GoString) (rooted : Bool) (b x : List GoString)
    (hroot : decide (z.head? = some 0x2F) = rooted)
    (hsplit : z.splitOn 0x2F = b ++ x) (hx : ∀ s ∈ x, plainName s) (hne : x ≠ []) :
    Clean z = pathString rooted ((b.foldl (cleanStep rooted) []).reverse ++ x) := by
  unfold Clean
  simp only [hroot, hsplit, List.foldl_append]
  rw [foldl_cleanStep_plain rooted x _ hx, List.reverse_append, List.reverse_reverse]
  cases x with
  | nil => exact absurd rfl hne
  | cons s x =>
    exact renderPath_eq_pathString _ _ s (by simp) (hx s (by simp)).1

theorem stack_isSeg (rooted : Bool) (b : List GoString) (hb : ∀ s ∈ b, (0x2F : Byte) ∉ s) :
    ∀ t ∈ (b.foldl (cleanStep rooted) []).reverse, isSeg t := by
  intro t ht
  rcases foldl_cleanStep_mem rooted b [] t (List.mem_reverse.1 ht) with h | ⟨h1, h2⟩
  · simp at h
  · exact ⟨h2, hb t h1⟩

theorem Clean_pathString (r0 : Bool) (a : List GoString) (ha : ∀ s ∈ a, isSeg s) :
    ∃ t : List GoString, (∀ s ∈ t, isSeg s) ∧ ∀ x : List GoString, (∀ s ∈ x, plainName s) →
      x ≠ [] → Clean (pathString r0 (a ++ x)) = pathString r0 (t ++ x) := by
  refine ⟨(((if r0 then [[]] else []) ++ a).foldl (cleanStep r0) []).reverse, ?_, ?_⟩
  · apply stack_isSeg
    intro s hs
    rcases List.mem_append.1 hs with hs | hs
    · split_ifs at hs
      · simp only [List.mem_singleton] at hs
        subst hs
        simp
      · simp at hs
    · exact (ha s hs).2
  · intro x hx hne
    have hseg : ∀ s ∈ a ++ x, isSeg s := by
      intro s hs
      rcases List.mem_append.1 hs with hs | hs
      · exact ha s hs
      · exact plainName_isSeg s (hx s hs)
    apply Clean_of_splitOn
    · exact head_pathString r0 (a ++ x) (by simp [hne]) hseg
    · rw [splitOn_pathString r0 (a ++ x) (by simp [hne]) fun s hs => (hseg s hs).2,
        List.append_assoc]
    · exact hx
    · exact hne

theorem Clean_append_pathString (e : GoString) (he : e ≠ []) (r0 : Bool) (a : List GoString)
    (ha : ∀ s ∈ a, isSeg s) :
    ∃ t : List GoString, (∀ s ∈ t, isSeg s) ∧ ∀ x : List GoString, (∀ s ∈ x, plainName s) →
      x ≠ [] → Clean (e ++ 0x2F :: pathString r0 (a ++ x))
        = pathString (decide (e.head? = some 0x2F)) (t ++ x) := by
  refine ⟨((e.splitOn 0x2F ++ ((if r0 then [[]] else []) ++ a)).foldl
    (cleanStep (decide (e.head? = some 0x2F))) []).reverse, ?_, ?_⟩
  · apply stack_isSeg
    intro s hs
    rcases List.mem_append.1 hs with hs | hs
    · exact mem_splitOn_no_sep _ _ _ hs
    · rcases List.mem_append.1 hs with hs | hs
      · split_ifs at hs
        · simp only [List.mem_singleton] at hs
          subst hs
          simp
        · simp at hs
      · exact (ha s hs).2
  · intro x hx hne
    have hseg : ∀ s ∈ a ++ x, isSeg s := by
      intro s hs
      rcases List.mem_append.1 hs with hs | hs
      · exact ha s hs
      · exact plainName_isSeg s (hx s hs)
    apply Clean_of_splitOn
    · cases e with
      | nil => exact absurd rfl he
      | cons c e => simp
    · rw [splitOn_append_cons,
        splitOn_pathString r0 (a ++ x) (by simp [hne]) fun s hs => (hseg s hs).2]
      simp only [List.append_assoc]
    · exact hx
    · exact hne

theorem Join_pair (e y : GoString) (he : e ≠ []) : Join [e, y] = Clean (e ++ 0x2F :: y) := by
  unfold Join
  have : List.dropWhile (fun e => decide (e = [])) [e, y] = [e, y] := by
    simp [List.dropWhile, he]
  rw [this]
  simp [List.intercalate]

/-- The real path of a name that ends in plain names ends in the same names. -/
theorem RealPath_pathString (base : GoString) (r0 : Bool) (a : List GoString)
    (ha : ∀ s ∈ a, isSeg s) :
    ∃ (r : Bool) (t : List GoString), (∀ s ∈ t, isSeg s) ∧ ∀ (x : List GoString) (q : GoString),
      (∀ s ∈ x, plainName s) → x ≠ [] →
      RealPath base (pathString r0 (a ++ x)) = .ok q → q = pathString r (t ++ x) := by
  obtain ⟨t1, ht1, h1⟩ := Clean_append_pathString (Clean base) (Clean_ne_nil base) r0 a ha
  obtain ⟨t2, ht2, h2⟩ := Clean_pathString (decide ((Clean base).head? = some 0x2F)) t1 ht1
  refine ⟨decide ((Clean base).head? = some 0x2F), t2, ht2, ?_⟩
  intro x q hx hne hq
  unfold RealPath at hq
  simp only at hq
  split_ifs at hq
  simp only [FsResult.ok.injEq] at hq
  rw [← hq, Join_pair _ _ (Clean_ne_nil base), h1 x hx hne, h2 x hx hne]

theorem resolve_pathString : ∀ (fs : Fs) (r0 : Bool) (a : List GoString),
    (∀ s ∈ a, isSeg s) →
    ∃ (r : Bool) (t : List GoString), (∀ s ∈ t, isSeg s) ∧ ∀ (x : List GoString) (p : GoString),
      (∀ s ∈ x, plainName s) → x ≠ [] →
      fs.resolve (pathString r0 (a ++ x)) = .ok p → p = pathString r (t ++ x)
  | .OsFs, r0, a, ha => by
    refine ⟨r0, a, ha, ?_⟩
    intro x p _ _ h
    simp only [Fs.resolve, FsResult.ok.injEq] at h
    exact h.symm
  | .BasePathFs source base, r0, a, ha => by
    obtain ⟨r1, t1, ht1, h1⟩ := RealPath_pathString base r0 a ha
    obtain ⟨r2, t2, ht2, h2⟩ := resolve_pathString source r1 t1 ht1
    refine ⟨r2, t2, ht2, ?_⟩
    intro x p hx hne h
    rw [Fs.resolve] at h
    cases hq : RealPath base (pathString r0 (a ++ x)) with
    | error e => rw [hq] at h; simp at h
    | ok q =>
      rw [hq] at h
      simp only at h
      rw [h1 x q hx hne hq] at h
      exact h2 x p hx hne h

theorem foldl_cleanStep_no_dotdot (rooted : Bool) : ∀ (segs : List GoString)
    (stack : List GoString), (∀ s ∈ segs, s ≠ str "..") → (∀ s ∈ segs, (0x2F : Byte) ∉ s) →
    ∃ k : List GoString, (∀ s ∈ k, plainName s)
      ∧ segs.foldl (cleanStep rooted) stack = k.reverse ++ stack
  | [], stack, _, _ => ⟨[], by simp, by simp⟩
  | s :: segs, stack, h1, h2 => by
    rw [List.foldl_cons]
    have h1' : ∀ s ∈ segs, s ≠ str ".." := fun y hy => h1 y (List.mem_cons_of_mem _ hy)
    have h2' : ∀ s ∈ segs, (0x2F : Byte) ∉ s := fun y hy => h2 y (List.mem_cons_of_mem _ hy)
    by_cases hs : s = [] ∨ s = str "."
    · have : cleanStep rooted stack s = stack := by
        unfold cleanStep
        rw [if_pos hs]
      rw [this]
      exact foldl_cleanStep_no_dotdot rooted segs stack h1' h2'
    · have hp : plainName s :=
        ⟨fun h => hs (Or.inl h), h2 s (by simp), fun h => hs (Or.inr h), h1 s (by simp)⟩
      rw [cleanStep_plain rooted stack s hp]
      obtain ⟨k, hk, hf⟩ := foldl_cleanStep_no_dotdot rooted segs (s :: stack) h1' h2'
      refine ⟨s :: k, ?_, ?_⟩
      · intro y hy
        rcases List.mem_cons.1 hy with rfl | hy
        · exact hp
        · exact hk y hy
      · rw [hf]
        simp

theorem Clean_plain (x : List GoString) (hx : ∀ s ∈ x, plainName s) (hne : x ≠ []) :
    Clean (pathString false x) = pathString false x := by
  have hseg : ∀ s ∈ x, isSeg s := fun s hs => plainName_isSeg s (hx s hs)
  have := Clean_of_splitOn (pathString false x) false [] x
    (head_pathString false x hne hseg)
    (by rw [splitOn_pathString false x hne fun s hs => (hseg s hs).2]; simp) hx hne
  simpa using this

theorem pathString_pair (n v : GoString) : pathString false [n, v] = n ++ 0x2F :: v := by
  simp [pathString, List.intercalate]

theorem Clean_Join_names (n v : GoString) (hn : plainName n) (hv : plainName v) :
    Clean (Join [n, v]) = pathString false [n, v] := by
  have hx : ∀ s ∈ [n, v], plainName s := by
    intro s hs
    simp only [List.mem_cons, List.mem_singleton, List.mem_nil_iff, or_false] at hs
    rcases hs with rfl | rfl
    · exact hn
    · exact hv
  rw [Join_pair n v hn.1, ← pathString_pair, Clean_plain _ hx (by simp),
    Clean_plain _ hx (by simp)]

theorem intercalate_append (sep : GoString) (k : List GoString) (hk : k ≠ []) :
    ∀ a : List GoString, a ≠ [] →
      sep.intercalate (a ++ k) = sep.intercalate a ++ sep ++ sep.intercalate k
  | [], h => absurd rfl h
  | [x], _ => by
    cases k with
    | nil => exact absurd rfl hk
    | cons y k =>
      rw [List.singleton_append, intercalate_cons_cons]
      simp [List.intercalate]
  | x :: y :: a, _ => by
    have ih := intercalate_append sep k hk (y :: a) (by simp)
    rw [List.cons_append, List.cons_append, intercalate_cons_cons, ← List.cons_append, ih,
      intercalate_cons_cons]
    simp

theorem pathString_prefix (a k : List GoString) (ha : a ≠ []) :
    pathString false a <+: pathString false (a ++ k) := by
  unfold pathString
  simp only [Bool.false_eq_true, if_false, List.nil_append]
  cases k with
  | nil => simp
  | cons y k =>
    rw [intercalate_append _ _ (by simp) a ha, List.append_assoc]
    exact List.prefix_append _ _

/-- The real path of a name without `..` below the directory of a namespace
with plain name and version is found, and is made of the directory's two
elements followed by plain names. -/
theorem RealPath_namespace_ok (n v p : GoString) (hn : plainName n) (hv : plainName v)
    (hp : ¬ (str ".." <:+: p)) :
    ∃ k : List GoString, (∀ s ∈ k, plainName s)
      ∧ RealPath (Clean (Join [n, v])) p = .ok (pathString false ([n, v] ++ k)) := by
  have hx : ∀ s ∈ [n, v], plainName s := by
    intro s hs
    simp only [List.mem_cons, List.mem_singleton, List.mem_nil_iff, or_false] at hs
    rcases hs with rfl | rfl
    · exact hn
    · exact hv
  have hE : Clean (Clean (Join [n, v])) = pathString false [n, v] := by
    rw [Clean_Join_names n v hn hv, Clean_plain _ hx (by simp)]
  have hEne : pathString false [n, v] ≠ [] := by
    rw [← hE]
    exact Clean_ne_nil _
  have hsegs1 : ∀ s ∈ p.splitOn 0x2F, s ≠ str ".." := by
    intro s hs heq
    exact hp (heq ▸ mem_splitOn_infix _ _ _ hs)
  have hsegs2 : ∀ s ∈ p.splitOn 0x2F, (0x2F : Byte) ∉ s :=
    fun s hs => mem_splitOn_no_sep _ _ _ hs
  obtain ⟨k, hk, hf⟩ := foldl_cleanStep_no_dotdot false (p.splitOn 0x2F) [v, n] hsegs1 hsegs2
  refine ⟨k, hk, ?_⟩
  have hxk : ∀ s ∈ [n, v] ++ k, plainName s := by
    intro s hs
    rcases List.mem_append.1 hs with hs | hs
    · exact hx s hs
    · exact hk s hs
  have hroot : decide ((pathString false [n, v] ++ 0x2F :: p).head? = some 0x2F) = false := by
    have := head_pathString false [n, v] (by simp) fun s hs => plainName_isSeg s (hx s hs)
    cases hps : pathString false [n, v] with
    | nil => exact absurd hps hEne
    | cons c e =>
      rw [hps] at this
      simpa using this
  have hinner : Clean (pathString false [n, v] ++ 0x2F :: p)
      = pathString false ([n, v] ++ k) := by
    unfold Clean
    simp only [hroot]
    rw [splitOn_append_cons, splitOn_pathString false [n, v] (by simp)
      fun s hs => (hx s hs).2.1]
    simp only [Bool.false_eq_true, if_false, List.nil_append, List.foldl_append,
      List.foldl_cons, List.foldl_nil]
    rw [cleanStep_plain false [] n hn, cleanStep_plain false [n] v hv, hf]
    simp only [List.reverse_append, List.reverse_reverse, List.reverse_cons, List.reverse_nil,
      List.nil_append, List.singleton_append, List.cons_append]
    exact renderPath_eq_pathString false _ n (by simp) hn.1
  have hpath : Clean (Join [Clean (Clean (Join [n, v])), p])
      = pathString false ([n, v] ++ k) := by
    rw [hE, Join_pair _ _ hEne, hinner, Clean_plain _ hxk (by simp)]
  unfold RealPath
  simp only
  rw [hpath, hE, if_neg]
  simp only [Bool.not_eq_true', Bool.not_eq_false, List.isPrefixOf_iff_prefix]
  exact pathString_prefix [n, v] k (by simp)

theorem RealPath_namespace (n v p q : GoString) (hn : plainName n) (hv : plainName v)
    (hp : ¬ (str ".." <:+: p))
    (hq : RealPath (Clean (Join [n, v])) p = .ok q) :
    ∃ k : List GoString, (∀ s ∈ k, plainName s) ∧ q = pathString false ([] ++ ([n, v] ++ k)) := by
  obtain ⟨k, hk, h⟩ := RealPath_namespace_ok n v p hn hv hp
  rw [h] at hq
  simp only [FsResult.ok.injEq] at hq
  exact ⟨k, hk, by rw [← hq]; rfl⟩

/-- Claim C1. `makeDiskKey` never returns a path containing `..`: for every key
(keys made only of dots included) the two-byte sequence `..` does not occur in
the encoded path, so no `/`-separated segment of it is `..`, and the path does
not climb out of the namespace root: below the directory `name/version` of a
namespace (name and version single path elements) the real path of the encoded
key is found and is that directory followed by plain names.  And
`../../etc/passwd` encodes to `%2E%2E/%2E%2E/etc/passwd`. -/
theorem makeDiskKey_no_dotdot (key : GoString) :
    ¬ (str ".." <:+: makeDiskKey key)
      ∧ (∀ seg ∈ (makeDiskKey key).splitOn 0x2F, seg ≠ str "..")
      ∧ (∀ n v : GoString, plainName n → plainName v →
          ∃ k : List GoString, (∀ s ∈ k, plainName s)
            ∧ RealPath (Clean (Join [n, v])) (makeDiskKey key)
              = .ok (pathString false ([n, v] ++ k)))
      ∧ makeDiskKey (str "../../etc/passwd") = str "%2E%2E/%2E%2E/etc/passwd" := by
  have h1 := no_dotdot_makeDiskKey key
  refine ⟨h1, ?_, ?_, by decide⟩
  · intro seg hseg heq
    exact h1 (heq ▸ mem_splitOn_infix _ _ _ hseg)
  · intro n v hn hv
    exact RealPath_namespace_ok n v (makeDiskKey key) hn hv h1

theorem Open_eq_resolve : ∀ (fs : Fs) (st : OsState) (name : GoString),
    fs.Open st name
      = match fs.resolve name with
        | .error e => .error e
        | .ok p => osOpen st p
  | .OsFs, st, name => by simp [Fs.Open, Fs.resolve]
  | .BasePathFs source base, st, name => by
    rw [Fs.Open, Fs.resolve]
    cases RealPath base name with
    | error e => rfl
    | ok q => exact Open_eq_resolve source st q

theorem MkdirAll_eq_resolve : ∀ (fs : Fs) (st : OsState) (now : Int) (name : GoString),
    fs.MkdirAll st now name
      = match fs.resolve name with
        | .error e => (some e, st)
        | .ok p => osMkdirAll st now p
  | .OsFs, st, now, name => by simp [Fs.MkdirAll, Fs.resolve]
  | .BasePathFs source base, st, now, name => by
    rw [Fs.MkdirAll, Fs.resolve]
    cases RealPath base name with
    | error e => rfl
    | ok q => exact MkdirAll_eq_resolve source st now q

theorem Create_eq_resolve : ∀ (fs : Fs) (st : OsState) (now : Int) (name contents : GoString),
    fs.Create st now name contents
      = match fs.resolve name with
        | .error e => (some e, st)
        | .ok p => osCreate st now p contents
  | .OsFs, st, now, name, contents => by simp [Fs.Create, Fs.resolve]
  | .BasePathFs source base, st, now, name, contents => by
    rw [Fs.Create, Fs.resolve]
    cases RealPath base name with
    | error e => rfl
    | ok q => exact Create_eq_resolve source st now q contents

theorem pathString_injective (r : Bool) (l1 l2 : List GoString) (h1 : l1 ≠ []) (h2 : l2 ≠ [])
    (hs1 : ∀ x ∈ l1, (0x2F : Byte) ∉ x) (hs2 : ∀ x ∈ l2, (0x2F : Byte) ∉ x)
    (h : pathString r l1 = pathString r l2) : l1 = l2 := by
  have := congrArg (fun s => List.splitOn (0x2F : Byte) s) h
  simp only at this
  rw [splitOn_pathString r l1 h1 hs1, splitOn_pathString r l2 h2 hs2] at this
  exact List.append_cancel_left this

theorem osMkdirAllAux_frame (now : Int) : ∀ (ps : List GoString) (st : OsState)
    (q : GoString), q ∉ ps → (osMkdirAllAux now ps st).2 q = st q
  | [], st, q, _ => rfl
  | p :: ps, st, q, h => by
    have hq : q ≠ p := fun h0 => h (by simp [h0])
    have hps : q ∉ ps := fun h0 => h (List.mem_cons_of_mem _ h0)
    rw [osMkdirAllAux]
    split
    · split_ifs
      · exact osMkdirAllAux_frame now ps st q hps
      · rfl
    · rw [osMkdirAllAux_frame now ps _ q hps]
      simp [OsState.set, hq]

theorem osCreate_frame (st : OsState) (now : Int) (path contents q : GoString)
    (hq : q ≠ path) : (osCreate st now path contents).2 q = st q := by
  have hset : ∀ n : Node, (st.set path n) q = st q := by
    intro n
    simp [OsState.set, hq]
  unfold osCreate
  split
  · split_ifs
    · rfl
    · exact hset _
  · split
    · exact hset _
    · split
      · rfl
      · split_ifs
        · exact hset _
        · rfl

theorem mem_ancestors (p q : GoString) (h : q ∈ ancestors p) :
    q ≠ [] ∧ ∃ pre : List GoString, pre <+: p.splitOn 0x2F ∧ q = [0x2F].intercalate pre := by
  unfold ancestors at h
  simp only [List.mem_filter, List.mem_map, List.mem_inits, decide_eq_true_eq] at h
  obtain ⟨⟨pre, hpre, rfl⟩, hne⟩ := h
  exact ⟨hne, pre, hpre, rfl⟩

/-- Paths below the directories of two distinct namespaces with plain names:
neither is the other, nor one of its ancestors. -/
theorem namespace_paths_apart (r : Bool) (t : List GoString) (ht : ∀ s ∈ t, isSeg s)
    (n1 v1 n2 v2 : GoString) (hn1 : plainName n1) (hv1 : plainName v1)
    (hn2 : plainName n2) (hv2 : plainName v2) (hne : (n1, v1) ≠ (n2, v2))
    (k1 k2 : List GoString) (hk1 : ∀ s ∈ k1, plainName s) (hk2 : ∀ s ∈ k2, plainName s) :
    pathString r (t ++ ([n2, v2] ++ k2)) ≠ pathString r (t ++ ([n1, v1] ++ k1))
      ∧ pathString r (t ++ ([n2, v2] ++ k2))
        ∉ ancestors (pathString r (t ++ ([n1, v1] ++ k1))) := by
  have hseg : ∀ (n v : GoString) (k : List GoString), plainName n → plainName v →
      (∀ s ∈ k, plainName s) → ∀ x ∈ t ++ ([n, v] ++ k), (0x2F : Byte) ∉ x := by
    intro n v k hn hv hk x hx
    simp only [List.mem_append, List.mem_cons, List.mem_singleton, List.mem_nil_iff,
      or_false] at hx
    rcases hx with hx | (rfl | rfl) | hx
    · exact (ht x hx).2
    · exact hn.2.1
    · exact hv.2.1
    · exact (hk x hx).2.1
  have hs1 := hseg n1 v1 k1 hn1 hv1 hk1
  have hs2 := hseg n2 v2 k2 hn2 hv2 hk2
  have hpre : ¬ ((if r then [[]] else []) ++ (t ++ ([n2, v2] ++ k2))
      <+: (if r then [[]] else []) ++ (t ++ ([n1, v1] ++ k1))) := by
    intro h
    rw [List.prefix_append_right_inj, List.prefix_append_right_inj] at h
    simp only [List.cons_append, List.nil_append, List.cons_prefix_cons] at h
    exact hne (by rw [h.1, h.2.1])
  constructor
  · intro h
    have := pathString_injective r _ _ (by simp) (by simp) hs2 hs1 h
    apply hpre
    rw [this]
  · intro h
    obtain ⟨hq, pre, hp, heq⟩ := mem_ancestors _ _ h
    rw [splitOn_pathString r _ (by simp) hs1] at hp
    have hprene : pre ≠ [] := by
      rintro rfl
      exact hq (by rw [heq]; rfl)
    have hpres : ∀ x ∈ pre, (0x2F : Byte) ∉ x := by
      intro x hx
      have hx2 := hp.subset hx
      rcases List.mem_append.1 hx2 with hx3 | hx3
      · split_ifs at hx3
        · simp only [List.mem_singleton] at hx3
          subst hx3
          simp
        · simp at hx3
      · exact hs1 x hx3
    have h1 := congrArg (fun s => List.splitOn (0x2F : Byte) s) heq
    simp only at h1
    rw [List.splitOn_intercalate _ _ hpres hprene, splitOn_pathString r _ (by simp) hs2] at h1
    apply hpre
    rw [h1]
    exact hp

theorem resolve_namespace (fs : Fs) :
    ∃ (r : Bool) (t : List GoString), (∀ s ∈ t, isSeg s) ∧ ∀ (n v p q : GoString),
      plainName n → plainName v → ¬ (str ".." <:+: p) →
      (Fs.BasePathFs fs (Clean (Join [n, v]))).resolve p = .ok q →
      ∃ k : List GoString, (∀ s ∈ k, plainName s) ∧ q = pathString r (t ++ ([n, v] ++ k)) := by
  obtain ⟨r, t, ht, h⟩ := resolve_pathString fs false [] (by simp)
  refine ⟨r, t, ht, ?_⟩
  intro n v p q hn hv hp hq
  rw [Fs.resolve] at hq
  cases hr : RealPath (Clean (Join [n, v])) p with
  | error e => rw [hr] at hq; simp at hq
  | ok q1 =>
    rw [hr] at hq
    simp only at hq
    obtain ⟨k, hk, rfl⟩ := RealPath_namespace n v p q1 hn hv hp hr
    refine ⟨k, hk, ?_⟩
    apply h ([n, v] ++ k) q _ (by simp) hq
    intro s hs
    simp only [List.cons_append, List.nil_append, List.mem_cons] at hs
    rcases hs with rfl | rfl | hs
    · exact hn
    · exact hv
    · exact hk s hs

theorem subFs_cases (fsys : Fs) (st : OsState) (now : Int) (subDirs : List GoString) :
    (subFs fsys st now subDirs).1.1 = none
      ∨ (subFs fsys st now subDirs).1
        = (some (.BasePathFs fsys (Clean (Join subDirs))), none) := by
  unfold subFs
  simp only
  repeat' split
  all_goals first
    | exact Or.inl rfl
    | exact Or.inr rfl

theorem GetCache_cases (d : filesystemCache) (st : OsState) (now : Int)
    (name version : GoString) :
    (d.GetCache st now name version).1 = .bypassedCache
      ∨ (d.GetCache st now name version).1
        = .filesystemCache ⟨Join [d.dir, name, version],
            .BasePathFs d.fs (Clean (Join [name, version])), d.ttl⟩ := by
  unfold filesystemCache.GetCache
  simp only
  rcases subFs_cases d.fs st now [name, version] with h | h
  · left
    split
    · rename_i heq
      rw [heq] at h
      simp at h
    · rfl
  · right
    rw [h]

theorem no_dotdot_Split (key : GoString) : ¬ (str ".." <:+: (Split (makeDiskKey key)).1) := by
  intro h
  have hpre : (Split (makeDiskKey key)).1 <+: makeDiskKey key := by
    unfold Split
    exact List.take_prefix _ _
  exact no_dotdot_makeDiskKey key (h.trans hpre.isInfix)

theorem WriteReader_frame (fs : Fs) (st : OsState) (now : Int) (path contents q : GoString)
    (h : ∀ x p : GoString, x = path ∨ x = (Split path).1 → fs.resolve x = .ok p →
      q ≠ p ∧ q ∉ ancestors p) :
    (WriteReader fs st now path contents).2 q = st q := by
  have hmk : (fs.MkdirAll st now (Split path).1).2 q = st q := by
    rw [MkdirAll_eq_resolve]
    cases hr : fs.resolve (Split path).1 with
    | error e => rfl
    | ok p => exact osMkdirAllAux_frame now _ st q (h _ p (Or.inr rfl) hr).2
  have hmade : (if (Split path).1 ≠ [] then fs.MkdirAll st now (Split path).1
      else (none, st)).2 q = st q := by
    split_ifs
    · exact hmk
    · rfl
  have hcr : ∀ s : OsState, (fs.Create s now path contents).2 q = s q := by
    intro s
    rw [Create_eq_resolve]
    cases hr : fs.resolve path with
    | error e => rfl
    | ok p => exact osCreate_frame s now p contents q (h _ p (Or.inl rfl) hr).1
  unfold WriteReader
  simp only
  generalize (if (Split path).1 ≠ [] then fs.MkdirAll st now (Split path).1 else (none, st))
    = made at hmade
  split
  · split_ifs
    · exact hmade
    · rw [hcr, hmade]
  · rw [hcr, hmade]

theorem Read_congr (d : filesystemCache) (st st1 : OsState) (later : Int) (key : GoString)
    (h : ∀ p : GoString, d.fs.resolve (makeDiskKey key) = .ok p → st1 p = st p) :
    d.Read st1 later key = d.Read st later key := by
  unfold filesystemCache.Read
  simp only
  rw [Open_eq_resolve, Open_eq_resolve]
  cases hr : d.fs.resolve (makeDiskKey key) with
  | error e => rfl
  | ok p =>
    simp only [osOpen]
    rw [h p hr]

theorem Join_names (dir : GoString) :
    ∃ (r : Bool) (t : List GoString), (∀ s ∈ t, isSeg s) ∧ ∀ n v : GoString,
      plainName n → plainName v → Join [dir, n, v] = pathString r (t ++ [n, v]) := by
  by_cases hd : dir = []
  · refine ⟨false, [], by simp, ?_⟩
    intro n v hn hv
    have hx : ∀ s ∈ [n, v], plainName s := by
      intro s hs
      simp only [List.mem_cons, List.mem_singleton, List.mem_nil_iff, or_false] at hs
      rcases hs with rfl | rfl
      · exact hn
      · exact hv
    have h1 : Join [dir, n, v] = Clean (pathString false [n, v]) := by
      unfold Join
      have : List.dropWhile (fun e => decide (e = [])) [dir, n, v] = [n, v] := by
        simp [List.dropWhile, hd, hn.1]
      rw [this]
      rfl
    rw [h1, Clean_plain _ hx (by simp)]
    rfl
  · obtain ⟨t, ht, h⟩ := Clean_append_pathString dir hd false [] (by simp)
    refine ⟨decide (dir.head? = some 0x2F), t, ht, ?_⟩
    intro n v hn hv
    have hx : ∀ s ∈ [n, v], plainName s := by
      intro s hs
      simp only [List.mem_cons, List.mem_singleton, List.mem_nil_iff, or_false] at hs
      rcases hs with rfl | rfl
      · exact hn
      · exact hv
    have h1 : Join [dir, n, v] = Clean (dir ++ 0x2F :: pathString false ([] ++ [n, v])) := by
      unfold Join
      have : List.dropWhile (fun e => decide (e = [])) [dir, n, v] = [dir, n, v] := by
        simp [List.dropWhile, hd]
      rw [this]
      simp [List.intercalate, pathString]
    rw [h1, h [n, v] hx (by simp)]

/-- Claim C4, as the code has it. For names and versions that are single path
elements (not empty, without `/`, neither `.` nor `..`), two distinct
`(name, version)` pairs get caches rooted at distinct directories that share
no file: no key of one is stored at the path of a key of the other, and a
`Write` through one changes no `Read` through the other. -/
theorem namespaces_isolated (d : filesystemCache) (n1 v1 n2 v2 : GoString)
    (hn1 : plainName n1) (hv1 : plainName v1) (hn2 : plainName n2) (hv2 : plainName v2)
    (hne : (n1, v1) ≠ (n2, v2)) :
    Join [d.dir, n1, v1] ≠ Join [d.dir, n2, v2]
      ∧ (∀ (s1 s2 : OsState) (t1 t2 : Int) (k1 k2 p : GoString),
          (d.GetCache s1 t1 n1 v1).1.filePath k1 = some p →
          (d.GetCache s2 t2 n2 v2).1.filePath k2 ≠ some p)
      ∧ (∀ (s1 s2 st : OsState) (t1 t2 now later : Int) (k1 contents k2 : GoString),
          (d.GetCache s2 t2 n2 v2).1.Read
              ((d.GetCache s1 t1 n1 v1).1.Write st now k1 contents).2 later k2
            = (d.GetCache s2 t2 n2 v2).1.Read st later k2) := by
  refine ⟨?_, ?_, ?_⟩
  · obtain ⟨r, t, ht, h⟩ := Join_names d.dir
    rw [h n1 v1 hn1 hv1, h n2 v2 hn2 hv2]
    intro heq
    have hs : ∀ (n v : GoString), plainName n → plainName v →
        ∀ x ∈ t ++ [n, v], (0x2F : Byte) ∉ x := by
      intro n v hn hv x hx
      simp only [List.mem_append, List.mem_cons, List.mem_singleton, List.mem_nil_iff,
        or_false] at hx
      rcases hx with hx | rfl | rfl
      · exact (ht x hx).2
      · exact hn.2.1
      · exact hv.2.1
    have := pathString_injective r _ _ (by simp) (by simp) (hs n1 v1 hn1 hv1)
      (hs n2 v2 hn2 hv2) heq
    have h2 := List.append_cancel_left this
    simp only [List.cons.injEq, and_true] at h2
    exact hne (by rw [h2.1, h2.2])
  · obtain ⟨r, t, ht, h⟩ := resolve_namespace d.fs
    intro s1 s2 t1 t2 k1 k2 p hp1 hp2
    rcases GetCache_cases d s1 t1 n1 v1 with hc1 | hc1
    · rw [hc1] at hp1
      simp [Cache.filePath] at hp1
    rcases GetCache_cases d s2 t2 n2 v2 with hc2 | hc2
    · rw [hc2] at hp2
      simp [Cache.filePath] at hp2
    rw [hc1] at hp1
    rw [hc2] at hp2
    simp only [Cache.filePath] at hp1 hp2
    split at hp1
    · simp at hp1
    · rename_i q1 hq1
      split at hp2
      · simp at hp2
      · rename_i q2 hq2
        simp only [Option.some.injEq] at hp1 hp2
        obtain ⟨k1', hk1, e1⟩ := h n1 v1 _ q1 hn1 hv1 (no_dotdot_makeDiskKey k1) hq1
        obtain ⟨k2', hk2, e2⟩ := h n2 v2 _ q2 hn2 hv2 (no_dotdot_makeDiskKey k2) hq2
        have := (namespace_paths_apart r t ht n1 v1 n2 v2 hn1 hv1 hn2 hv2 hne k1' k2'
          hk1 hk2).1
        rw [← e1, ← e2, hp1, hp2] at this
        exact this rfl
  · obtain ⟨r, t, ht, h⟩ := resolve_namespace d.fs
    intro s1 s2 st t1 t2 now later k1 contents k2
    rcases GetCache_cases d s2 t2 n2 v2 with hc2 | hc2
    · rw [hc2]
      rfl
    rcases GetCache_cases d s1 t1 n1 v1 with hc1 | hc1
    · rw [hc1]
      rfl
    rw [hc1, hc2]
    simp only [Cache.Read, Cache.Write, filesystemCache.Write]
    apply Read_congr
    intro q2 hq2
    simp only at hq2
    obtain ⟨k2', hk2, e2⟩ := h n2 v2 _ q2 hn2 hv2 (no_dotdot_makeDiskKey k2) hq2
    apply WriteReader_frame
    intro x q1 hx hq1
    have hxdd : ¬ (str ".." <:+: x) := by
      rcases hx with rfl | rfl
      · exact no_dotdot_makeDiskKey k1
      · exact no_dotdot_Split k1
    obtain ⟨k1', hk1, e1⟩ := h n1 v1 x q1 hn1 hv1 hxdd hq1
    rw [e1, e2]
    exact namespace_paths_apart r t ht n1 v1 n2 v2 hn1 hv1 hn2 hv2 hne k1' k2' hk1 hk2

set_option maxRecDepth 100000 in
theorem namespaces_isolated_witness :
    (Join [exStore.dir, str "a", str "1"] ≠ Join [exStore.dir, str "a", str "2"]
      ∧ (∀ (s1 s2 : OsState) (t1 t2 : Int) (k1 k2 p : GoString),
          (exStore.GetCache s1 t1 (str "a") (str "1")).1.filePath k1 = some p →
          (exStore.GetCache s2 t2 (str "a") (str "2")).1.filePath k2 ≠ some p)
      ∧ (∀ (s1 s2 st : OsState) (t1 t2 now later : Int) (k1 contents k2 : GoString),
          (exStore.GetCache s2 t2 (str "a") (str "2")).1.Read
              ((exStore.GetCache s1 t1 (str "a") (str "1")).1.Write st now k1 contents).2
              later k2
            = (exStore.GetCache s2 t2 (str "a") (str "2")).1.Read st later k2))
      ∧ (exStore.GetCache exTree0 1 (str "a") (str "1")).1.Write exTree 2 (str "k") (str "X")
        = (none, ((exStore.GetCache exTree0 1 (str "a") (str "1")).1.Write exTree 2 (str "k")
            (str "X")).2)
      ∧ (exStore.GetCache ((exStore.GetCache exTree0 1 (str "a") (str "1")).1.Write exTree 2
            (str "k") (str "X")).2 3 (str "a") (str "2")).1.Read
          (exStore.GetCache ((exStore.GetCache exTree0 1 (str "a") (str "1")).1.Write exTree 2
            (str "k") (str "X")).2 3 (str "a") (str "2")).2 4 (str "k")
        = (none, some errNotFound) :=
  ⟨namespaces_isolated exStore (str "a") (str "1") (str "a") (str "2") (by decide) (by decide)
    (by decide) (by decide) (by decide), Prod.ext (by decide) rfl, by decide⟩

set_option maxRecDepth 100000 in
/-- Counterexample to claim C4 as stated. The distinct pairs `("a/b", "c")` and
`("a", "b/c")` join to the same directory `/cache/a/b/c`: `GetCache` returns
the same cache for both, and what is written under key `k` through the first
is what a `Read` of `k` through the second returns. -/
theorem namespaces_share_directory :
    (str "a/b", str "c") ≠ (str "a", str "b/c")
      ∧ (exStore.GetCache exTree0 1 (str "a/b") (str "c")).1
        = .filesystemCache ⟨str "/cache/a/b/c",
            .BasePathFs (.BasePathFs .OsFs (str "/cache")) (str "a/b/c"), 1000⟩
      ∧ (exStore.GetCache (exStore.GetCache exTree0 1 (str "a/b") (str "c")).2 2 (str "a")
          (str "b/c")).1
        = .filesystemCache ⟨str "/cache/a/b/c",
            .BasePathFs (.BasePathFs .OsFs (str "/cache")) (str "a/b/c"), 1000⟩
      ∧ (exStore.GetCache (exStore.GetCache exTree0 1 (str "a/b") (str "c")).2 2 (str "a")
          (str "b/c")).1.Read
          ((exStore.GetCache exTree0 1 (str "a/b") (str "c")).1.Write
            (exStore.GetCache (exStore.GetCache exTree0 1 (str "a/b") (str "c")).2 2 (str "a")
              (str "b/c")).2 3 (str "k") (str "X")).2 4 (str "k")
        = (some ⟨str "X", some ⟨3, false⟩⟩, none) := by
  decide

end GoCache
